import Mathlib

/-!
Verification development for the voice-to-note pipeline.

Shallow embedding of the program's core components:
* `TextProcessor._remove_filler_words_pattern` (src/text_processor.py) — the
  deterministic filler-word pass, modelled as explicit scanners over `List Char`
  for the three regex substitutions the source builds
  (`\bf\b[,\s]+`, `[,\s]+\bf\b(?=[,.\s])`, `\bf\b`, all with `re.IGNORECASE`)
  and the whitespace cleanup (`\s+ -> " "`, `\s+([.,!?]) -> \1`, `str.strip`).
* `TranscriptionService.transcribe` / `validate_file_size` / `estimate_cost`
  (src/transcription_service.py) — retry loop with backoff, upload-size gate,
  duration-based cost model.
* `FileWriter.write` / `_get_unique_path` (src/file_writer.py) — collision-safe
  naming over an abstract file-existence predicate.
* `Pipeline.process_file` / `process_files` / `estimate_cost` (src/pipeline.py) —
  the orchestration workflow, with the fallible external steps supplied by an
  environment record, and elapsed time modelled as abstract per-step durations.

External effects (the two remote API calls, the clock, the filesystem) are
modelled by explicit environment parameters; machine floats of the source are
modelled as exact rationals.
-/

set_option maxHeartbeats 1000000

/-! ## Character classes.

Python `re` word characters (`\w`) restricted to the character sets this program
can meet: ASCII alphanumerics, underscore, and the CJK unified ideographs block
(which contains all the configured Chinese filler words).  Whitespace (`\s`) is
the ASCII whitespace set plus NBSP and the ideographic space.  Case folding
(`re.IGNORECASE`) is ASCII case folding, on code points.  -/

def lowN (n : Nat) : Nat := if 65 ≤ n ∧ n ≤ 90 then n + 32 else n

def lowCh (c : Char) : Nat := lowN c.toNat

def isWordN (n : Nat) : Bool :=
  decide ((97 ≤ n ∧ n ≤ 122) ∨ (65 ≤ n ∧ n ≤ 90) ∨ (48 ≤ n ∧ n ≤ 57) ∨ n = 95 ∨
    (19968 ≤ n ∧ n ≤ 40959))

def isWordC (c : Char) : Bool := isWordN c.toNat

def isSpC (c : Char) : Bool :=
  decide (c.toNat = 32 ∨ c.toNat = 9 ∨ c.toNat = 10 ∨ c.toNat = 13 ∨ c.toNat = 11 ∨
    c.toNat = 12 ∨ c.toNat = 12288 ∨ c.toNat = 160)

/-- The character class `[,\s]` used by the two boundary-context patterns. -/
def isCS (c : Char) : Bool := c = ',' || isSpC c

/-- The punctuation class `[.,!?]` of the whitespace-before-punctuation cleanup. -/
def isPu (c : Char) : Bool := c = '.' || c = ',' || c = '!' || c = '?'

/-- The lookahead class `[,.\s]` of the second boundary-context pattern. -/
def isCPS (c : Char) : Bool := c = ',' || c = '.' || isSpC c

/-- Case-insensitive prefix match: the pattern text `f` matches the front of `s`. -/
def ciPref : List Char → List Char → Bool
  | [], _ => true
  | _ :: _, [] => false
  | a :: f, b :: s => (lowCh a == lowCh b) && ciPref f s

/-! ## The three substitution patterns of `_remove_filler_words_pattern`.

Each is modelled as a left-to-right, non-overlapping scanner, exactly as
`re.sub` scans.  The scanners carry `pw`, the word-ness of the character
immediately before the current position (`false` at the start of the string),
which is all that `\b` depends on.  Each match is replaced by a single `' '`.
Empty filler words never occur in the source's configuration and are not given
a meaning here (the match conditions require a non-empty pattern). -/

/-- The `\b` before the pattern: word-ness must change between the previous
character (`pw`) and the first matched character. -/
def bdryB (pw : Bool) (s : List Char) : Bool :=
  match s.head? with
  | some b => pw != isWordC b
  | none => false

/-- The `\b` after the pattern: word-ness must change between the last matched
character and the character following the match (end of string is non-word). -/
def bdryA (f s : List Char) : Bool :=
  match (s.drop f.length).head? with
  | some d => isWordC (s.getD (f.length - 1) ' ') != isWordC d
  | none => isWordC (s.getD (f.length - 1) ' ')

/-- The character following the match is in the class `[,\s]` (pattern 1's
required run start). -/
def lookCS (f s : List Char) : Bool :=
  match (s.drop f.length).head? with
  | some d => isCS d
  | none => false

/-- The character following the match is in the lookahead class `[,.\s]`
(pattern 2's `(?=[,.\s])`). -/
def lookCPS (f s : List Char) : Bool :=
  match (s.drop f.length).head? with
  | some d => isCPS d
  | none => false

/-- Match of `\bf\b` at the front of `s`, given previous-character word-ness `pw`. -/
def wwAt (f : List Char) (pw : Bool) (s : List Char) : Bool :=
  !f.isEmpty && ciPref f s && bdryB pw s && bdryA f s

/-- `re.sub(rf'\b{f}\b', ' ', s, flags=re.IGNORECASE)` (the `high` pattern). -/
def subWW (f : List Char) (pw : Bool) (s : List Char) : List Char :=
  match s with
  | [] => []
  | c :: rest =>
    if wwAt f pw (c :: rest) then
      ' ' :: subWW f (isWordC ((c :: rest).getD (f.length - 1) ' ')) (rest.drop (f.length - 1))
    else
      c :: subWW f (isWordC c) rest
termination_by s.length
decreasing_by
  · simp only [List.length_drop, List.length_cons]; omega
  · simp only [List.length_cons]; omega

/-- Match of `\bf\b[,\s]+` at the front of `s` (the run itself is taken greedily
by the scanner below; here only its first character is constrained). -/
def p1At (f : List Char) (pw : Bool) (s : List Char) : Bool :=
  !f.isEmpty && ciPref f s && bdryB pw s && bdryA f s && lookCS f s

/-- `re.sub(rf'\b{f}\b[,\s]+', ' ', s, flags=re.IGNORECASE)`. -/
def sub1 (f : List Char) (pw : Bool) (s : List Char) : List Char :=
  match s with
  | [] => []
  | c :: rest =>
    if p1At f pw (c :: rest) then
      ' ' :: sub1 f
        (isWordC ((((c :: rest).drop f.length).takeWhile isCS).getLastD c))
        (rest.drop (f.length + (((c :: rest).drop f.length).takeWhile isCS).length - 1))
    else
      c :: sub1 f (isWordC c) rest
termination_by s.length
decreasing_by
  · simp only [List.length_drop, List.length_cons]; omega
  · simp only [List.length_cons]; omega

/-- Match of `[,\s]+\bf\b(?=[,.\s])` at the front of `s`.  The `[,\s]+` run is
greedy; since the pattern texts in use start with a word character, no
backtracking into the run is possible, so the match is the maximal run followed
by `f` followed by the (unconsumed) lookahead character. -/
def p2At (f : List Char) (s : List Char) : Bool :=
  !(s.takeWhile isCS).isEmpty && !f.isEmpty &&
  ciPref f (s.drop (s.takeWhile isCS).length) &&
  bdryB false (s.drop (s.takeWhile isCS).length) &&
  bdryA f (s.drop (s.takeWhile isCS).length) &&
  lookCPS f (s.drop (s.takeWhile isCS).length)

/-- `re.sub(rf'[,\s]+\b{f}\b(?=[,.\s])', ' ', s, flags=re.IGNORECASE)`.
The scanner state `_pw` is kept for uniformity with the other two scanners but
never consulted: this pattern has no constraint before its leading `[,\s]+`. -/
def sub2 (f : List Char) (_pw : Bool) (s : List Char) : List Char :=
  match s with
  | [] => []
  | c :: rest =>
    if p2At f (c :: rest) then
      ' ' :: sub2 f
        (isWordC ((((c :: rest).drop ((c :: rest).takeWhile isCS).length)).getD (f.length - 1) ' '))
        (rest.drop (((c :: rest).takeWhile isCS).length + f.length - 1))
    else
      c :: sub2 f (isWordC c) rest
termination_by s.length
decreasing_by
  · simp only [List.length_drop, List.length_cons]; omega
  · simp only [List.length_cons]; omega

/-- `re.sub(r'\s+', ' ', s)`: collapse every whitespace run to a single space. -/
def collapseWS : List Char → List Char
  | [] => []
  | c :: rest =>
    if isSpC c then ' ' :: collapseWS (rest.dropWhile isSpC)
    else c :: collapseWS rest
termination_by s => s.length
decreasing_by
  · have := (List.dropWhile_sublist (l := rest) isSpC).length_le
    simp only [List.length_cons]; omega
  · simp only [List.length_cons]; omega

/-- `re.sub(r'\s+([.,!?])', r'\1', s)`: delete whitespace runs that immediately
precede one of `.,!?` (keeping the punctuation). -/
def subPunctWS : List Char → List Char
  | [] => []
  | c :: rest =>
    if isSpC c then
      match h : rest.dropWhile isSpC with
      | p :: tl =>
        if isPu p then p :: subPunctWS tl
        else (c :: rest.takeWhile isSpC) ++ subPunctWS (rest.dropWhile isSpC)
      | [] => c :: rest.takeWhile isSpC
    else c :: subPunctWS rest
termination_by s => s.length
decreasing_by
  · have h2 := (List.dropWhile_sublist (l := rest) isSpC).length_le
    have h3 : (rest.dropWhile isSpC).length = tl.length + 1 := by rw [h]; simp
    simp only [List.length_cons]; omega
  · have := (List.dropWhile_sublist (l := rest) isSpC).length_le
    simp only [List.length_cons]; omega
  · simp only [List.length_cons]; omega

/-- Python `str.strip` of trailing whitespace. -/
def stripTrail : List Char → List Char
  | [] => []
  | c :: rest =>
    match stripTrail rest with
    | [] => if isSpC c then [] else [c]
    | t => c :: t

/-- Python `str.strip` (both ends). -/
def stripWS (s : List Char) : List Char := stripTrail (s.dropWhile isSpC)

/-! ## `TextProcessor._remove_filler_words_pattern`. -/

/-- Apply, in order, the substitution patterns the source registers for one
filler word at the given aggressiveness (`moderate`/`high` register the two
boundary-context patterns; `high` additionally registers the bare pattern). -/
def applyFillerSubs (aggressiveness : String) (f : List Char) (s : List Char) : List Char :=
  let s1 := if aggressiveness == "moderate" || aggressiveness == "high" then sub1 f false s else s
  let s2 := if aggressiveness == "moderate" || aggressiveness == "high" then sub2 f false s1 else s1
  if aggressiveness == "high" then subWW f false s2 else s2

/-- `TextProcessor._remove_filler_words_pattern` (src/text_processor.py):
at `low` aggressiveness the input is returned unchanged; otherwise the
registered patterns are applied for each configured filler word in order,
followed by whitespace collaping, whitespace-before-punctuation removal and a
final strip. -/
def TextProcessor.removeFillerPattern (aggressiveness : String) (fillerWords : List String)
    (text : String) : String :=
  if aggressiveness = "low" then text
  else
    (stripWS (subPunctWS (collapseWS
      (fillerWords.foldl (fun acc fw => applyFillerSubs aggressiveness fw.toList acc)
        text.toList)))).asString

/-! Observation functions used by the theorems about the filler-word pass. -/

/-- Maximal word-character runs of a string, in order. -/
def wordRuns : List Char → List (List Char)
  | [] => []
  | c :: rest =>
    if isWordC c then (c :: rest.takeWhile isWordC) :: wordRuns (rest.dropWhile isWordC)
    else wordRuns rest
termination_by s => s.length
decreasing_by
  · have := (List.dropWhile_sublist (l := rest) isWordC).length_le
    simp only [List.length_cons]; omega
  · simp only [List.length_cons]; omega

/-- Word runs visible to a scan whose previous character has word-ness `pw`
(a run already in progress at the scan start is not a standalone token). -/
def wordRunsFrom (pw : Bool) (s : List Char) : List (List Char) :=
  if pw then wordRuns (s.dropWhile isWordC) else wordRuns s

/-- ASCII-casefolded code points of a run. -/
def lows (w : List Char) : List Nat := w.map lowCh

/-- Scan for a whole-word (`\bf\b`), case-insensitive occurrence of `f`. -/
def hasWWFrom (f : List Char) (pw : Bool) : List Char → Bool
  | [] => false
  | c :: rest => wwAt f pw (c :: rest) || hasWWFrom f (isWordC c) rest

/-- `s` contains a standalone (whole-word, case-insensitive) occurrence of `f`. -/
def hasWW (f : List Char) (s : List Char) : Bool := hasWWFrom f false s

/-- No two adjacent whitespace characters. -/
def noAdjWS : List Char → Bool
  | a :: b :: r => !(isSpC a && isSpC b) && noAdjWS (b :: r)
  | _ => true

/-- No whitespace character immediately followed by one of `.,!?`. -/
def noWSPunct : List Char → Bool
  | a :: b :: r => !(isSpC a && isPu b) && noWSPunct (b :: r)
  | _ => true

/-! ## Rounding and cost models.

Python's `round(x, 4)` / `round(x, 2)` (round half to even at the given decimal
digit) and `int(x)` (truncation toward zero), modelled over exact rationals. -/

/-- Round half to even, to an integer. -/
def roundHalfEven (x : ℚ) : ℤ :=
  if x - ⌊x⌋ < 1 / 2 then ⌊x⌋
  else if 1 / 2 < x - ⌊x⌋ then ⌊x⌋ + 1
  else if ⌊x⌋ % 2 = 0 then ⌊x⌋ else ⌊x⌋ + 1

/-- Python `round(x, 4)`. -/
def round4 (x : ℚ) : ℚ := (roundHalfEven (x * 10000) : ℚ) / 10000

/-- Python `round(x, 2)`. -/
def round2 (x : ℚ) : ℚ := (roundHalfEven (x * 100) : ℚ) / 100

/-- Python `int(x)` (truncation toward zero). -/
def pyInt (x : ℚ) : ℤ := if 0 ≤ x then ⌊x⌋ else -⌊-x⌋

/-! ## Data model. -/

/-- One input recording (`AudioFile` of src/audio_handler.py), reduced to the
metadata fields the verified components read: the file name, `st_size`, and
`metadata['duration_seconds']`. -/
structure AudioFile where
  name : String
  sizeBytes : Nat
  durationSeconds : ℚ
deriving Repr, DecidableEq

/-- `ProcessingResult` of src/pipeline.py.  `processing_time` is in abstract
clock ticks (the source measures wall-clock seconds). -/
structure ProcessingResult where
  audio_file : AudioFile
  success : Bool
  output_path : Option String
  error : Option String
  transcript_length : Nat
  processing_time : Nat
deriving Repr, DecidableEq

/-- The domain errors of src/pipeline.py's `except` clauses, plus the
catch-all for unexpected exceptions.  Each carries its `str(e)` message. -/
inductive PipeError where
  | transcription (msg : String)
  | textProcessing (msg : String)
  | fileWrite (msg : String)
  | unexpected (msg : String)
deriving Repr, DecidableEq

/-- `str(e)`. -/
def PipeError.str : PipeError → String
  | .transcription m => m
  | .textProcessing m => m
  | .fileWrite m => m
  | .unexpected m => m

/-- The message recorded in `ProcessingResult.error`: for the three domain
errors the handler stores `str(e)`; for any other exception it stores
`f"Unexpected error: {e}"`. -/
def PipeError.caught : PipeError → String
  | .unexpected m => "Unexpected error: " ++ m
  | e => e.str

/-! ## `TranscriptionService` (src/transcription_service.py). -/

def MAX_RETRIES : Nat := 3
def RETRY_DELAY : Nat := 2

/-- Outcome of one call of `_transcribe_with_retry`: the transcribed text, or
the exception class it raises (`RateLimitError`, `APIConnectionError`, other
`APIError`, or any unexpected exception), with its message. -/
inductive AttemptOut where
  | ok (text : String)
  | rateLimit (msg : String)
  | connError (msg : String)
  | apiError (msg : String)
  | unexpected (msg : String)
deriving Repr, DecidableEq

/-- Observable outcome of `TranscriptionService.transcribe`: the returned text
or the raised `TranscriptionError` message, the sleeps performed (in seconds,
in order), and the number of attempts issued. -/
structure TranscribeTrace where
  result : Except String String
  sleeps : List Nat
  attemptsMade : Nat
deriving Repr

/-- The `for attempt in range(1, MAX_RETRIES + 1)` loop of `transcribe`, with
the attempt outcomes supplied by `env`.  The `fuel = 0` case corresponds to the
`raise` after the loop, which is unreachable (the third attempt always returns
or raises). -/
def transcribeGo (env : Nat → AttemptOut) : Nat → Nat → List Nat → TranscribeTrace
  | 0, _, sleeps =>
    { result := .error "Transcription failed after all retry attempts",
      sleeps := sleeps, attemptsMade := MAX_RETRIES }
  | fuel + 1, attempt, sleeps =>
    match env attempt with
    | .ok t => { result := .ok t, sleeps := sleeps, attemptsMade := attempt }
    | .rateLimit _ =>
      if attempt < MAX_RETRIES then
        transcribeGo env fuel (attempt + 1) (sleeps ++ [RETRY_DELAY * 2 ^ (attempt - 1)])
      else
        { result := .error "Rate limit exceeded after 3 attempts. Please try again later.",
          sleeps := sleeps, attemptsMade := attempt }
    | .connError _ =>
      if attempt < MAX_RETRIES then
        transcribeGo env fuel (attempt + 1) (sleeps ++ [RETRY_DELAY * attempt])
      else
        { result := .error "Connection failed after 3 attempts. Please check your internet connection.",
          sleeps := sleeps, attemptsMade := attempt }
    | .apiError m =>
      { result := .error ("OpenAI API error: " ++ m), sleeps := sleeps, attemptsMade := attempt }
    | .unexpected m =>
      { result := .error ("Unexpected error during transcription: " ++ m),
        sleeps := sleeps, attemptsMade := attempt }

/-- `TranscriptionService.transcribe`. -/
def TranscriptionService.transcribe (env : Nat → AttemptOut) : TranscribeTrace :=
  transcribeGo env MAX_RETRIES 1 []

/-- `attempt` is a retry-class failure (`RateLimitError` / `APIConnectionError`). -/
def retryable : AttemptOut → Prop
  | .rateLimit _ => True
  | .connError _ => True
  | _ => False

instance (o : AttemptOut) : Decidable (retryable o) := by
  unfold retryable; cases o <;> simp <;> infer_instance

/-- The sleep the source performs after a failed attempt `k` before retrying:
exponential (`RETRY_DELAY * 2^(k-1)`) for rate limits, linear
(`RETRY_DELAY * k`) for connection errors. -/
def delayFor (o : AttemptOut) (k : Nat) : Nat :=
  match o with
  | .rateLimit _ => RETRY_DELAY * 2 ^ (k - 1)
  | .connError _ => RETRY_DELAY * k
  | _ => 0

/-- Render `sizeBytes / (1024*1024)` as the `:.2f` megabyte figure used in the
oversize error message. -/
def mbStr (sizeBytes : Nat) : String :=
  let h : ℤ := roundHalfEven ((sizeBytes : ℚ) * 100 / (1024 * 1024))
  let hn : Nat := h.toNat
  toString (hn / 100) ++ "." ++
    (if hn % 100 < 10 then "0" else "") ++ toString (hn % 100)

/-- The `TranscriptionError` message of `validate_file_size`. -/
def sizeErrMsg (name : String) (sizeBytes : Nat) : String :=
  "Audio file " ++ name ++ " is " ++ mbStr sizeBytes ++
    " MB, which exceeds the 25 MB API limit. Please use a shorter recording or compress the file."

/-- `TranscriptionService.validate_file_size`: reject files whose size in
megabytes exceeds 25.  A purely local check — no remote interaction. -/
def validate_file_size (name : String) (sizeBytes : Nat) : Except PipeError Unit :=
  if (sizeBytes : ℚ) / (1024 * 1024) > 25 then
    .error (.transcription (sizeErrMsg name sizeBytes))
  else .ok ()

/-- `TranscriptionService.estimate_cost`: $0.006 per minute of audio. -/
def TranscriptionService.estimate_cost (durationSeconds : ℚ) : ℚ :=
  durationSeconds / 60 * (6 / 1000)

/-! ## `TextProcessor.estimate_cost` (src/text_processor.py). -/

/-- `TextProcessor.estimate_cost` as a function of the input length (the
source only reads `len(text)`): tokens ≈ chars/4, $0.01 input + $0.03 output
per 1K tokens. -/
def TextProcessor.estimate_cost_len (chars : Nat) : ℚ :=
  (chars : ℚ) / 4 / 1000 * (1 / 100) + (chars : ℚ) / 4 / 1000 * (3 / 100)

/-! ## `FileWriter` (src/file_writer.py).

The vault directory is modelled by its existence predicate
`fs : String → Bool` over file names within the output folder. -/

/-- `Path.stem` / `Path.suffix` for a file name. -/
def splitStemExt (filename : String) : String × String :=
  match (filename.toList.reverse.takeWhile (· ≠ '.')).length, filename.length with
  | rl, n =>
    if rl + 1 < n ∧ 0 < rl then
      ((filename.toList.take (n - rl - 1)).asString, (filename.toList.drop (n - rl - 1)).asString)
    else (filename, "")

/-- The candidate name `f"{stem}_{counter}{suffix}"`. -/
def probeName (stem ext : String) (counter : Nat) : String :=
  stem ++ "_" ++ toString counter ++ ext

/-- The `while True` probing loop of `_get_unique_path`: try
`stem_1, stem_2, …`; after the 1000th occupied probe the counter exceeds 1000
and the loop raises `FileWriteError`.  `fuel` is `1001 - counter`; the
`fuel = 0` case raises the same error and is unreachable for the initial call. -/
def getUniqueGo (fs : String → Bool) (filename stem ext : String) : Nat → Nat → Except String String
  | counter, fuel + 1 =>
    if fs (probeName stem ext counter) = false then .ok (probeName stem ext counter)
    else if counter + 1 > 1000 then
      .error ("Could not find unique filename for " ++ filename ++ " after 1000 attempts")
    else getUniqueGo fs filename stem ext (counter + 1) fuel
  | _, 0 =>
    .error ("Could not find unique filename for " ++ filename ++ " after 1000 attempts")

/-- `FileWriter._get_unique_path`: the target name itself if free, otherwise
the first free suffixed probe. -/
def FileWriter.getUniquePath (fs : String → Bool) (filename : String) : Except String String :=
  if fs filename = false then .ok filename
  else getUniqueGo fs filename (splitStemExt filename).1 (splitStemExt filename).2 1 1000

/-- `FileWriter.write`, path component: resolve the unique path (errors are
wrapped as `f"Failed to write file {filename}: {e}"`).  The directory creation,
content write and post-write existence check are modelled as succeeding. -/
def FileWriter.writePath (fs : String → Bool) (filename : String) : Except String String :=
  match FileWriter.getUniquePath fs filename with
  | .error e => .error ("Failed to write file " ++ filename ++ ": " ++ e)
  | .ok p => .ok p

/-- The vault contents after a successful `FileWriter.write`. -/
def FileWriter.fsAfter (fs : String → Bool) (filename : String) : String → Bool :=
  match FileWriter.writePath fs filename with
  | .ok p => fun q => q = p || fs q
  | .error _ => fs

/-! ## `Pipeline` (src/pipeline.py). -/

/-- The environment of one item's workflow: outcome and duration (abstract
ticks) of each fallible or external step.  `transcribeRes` is the behavior of
`TranscriptionService.transcribe`, `cleanRes` of `TextProcessor.process`,
`writeRes` of `FileWriter.write` (its argument is the formatted document);
`formatDoc` abstracts steps 4–6 (metadata, markdown formatting, filename),
which depend on the wall clock. -/
structure StepEnv where
  validateTime : Nat
  transcribeRes : Except PipeError String
  transcribeTime : Nat
  cleanRes : String → Except PipeError String
  cleanTime : Nat
  formatDoc : String → String
  formatTime : Nat
  writeRes : String → Except PipeError String
  writeTime : Nat

/-- A failed `ProcessingResult` as built in the two `except` handlers of
`process_file`. -/
def failRes (af : AudioFile) (e : PipeError) (t : Nat) : ProcessingResult :=
  { audio_file := af, success := false, output_path := none,
    error := some e.caught, transcript_length := 0, processing_time := t }

/-- `Pipeline.process_file`: the 7-step workflow inside one `try`, returning
the `ProcessingResult` and the trace of steps that were started (remote steps
are `"transcribe"` and `"process_text"`).  Every error of any step is caught
and converted; the function is total, so no exception propagates. -/
def Pipeline.process_file (env : StepEnv) (af : AudioFile) : ProcessingResult × List String :=
  match validate_file_size af.name af.sizeBytes with
  | .error e => (failRes af e env.validateTime, ["validate_size"])
  | .ok _ =>
    match env.transcribeRes with
    | .error e =>
      (failRes af e (env.validateTime + env.transcribeTime), ["validate_size", "transcribe"])
    | .ok raw =>
      match env.cleanRes raw with
      | .error e =>
        (failRes af e (env.validateTime + env.transcribeTime + env.cleanTime),
         ["validate_size", "transcribe", "process_text"])
      | .ok cleaned =>
        match env.writeRes (env.formatDoc cleaned) with
        | .error e =>
          (failRes af e
            (env.validateTime + env.transcribeTime + env.cleanTime + env.formatTime +
              env.writeTime),
           ["validate_size", "transcribe", "process_text", "format", "write"])
        | .ok outPath =>
          ({ audio_file := af, success := true, output_path := some outPath, error := none,
             transcript_length := cleaned.length,
             processing_time :=
               env.validateTime + env.transcribeTime + env.cleanTime + env.formatTime +
                 env.writeTime },
           ["validate_size", "transcribe", "process_text", "format", "write"])

/-- The first error raised inside the `try` block of `process_file` for this
environment, with the elapsed time at the moment it is caught. -/
def Pipeline.firstFailure (env : StepEnv) (af : AudioFile) : Option (PipeError × Nat) :=
  match validate_file_size af.name af.sizeBytes with
  | .error e => some (e, env.validateTime)
  | .ok _ =>
    match env.transcribeRes with
    | .error e => some (e, env.validateTime + env.transcribeTime)
    | .ok raw =>
      match env.cleanRes raw with
      | .error e => some (e, env.validateTime + env.transcribeTime + env.cleanTime)
      | .ok cleaned =>
        match env.writeRes (env.formatDoc cleaned) with
        | .error e =>
          some (e, env.validateTime + env.transcribeTime + env.cleanTime + env.formatTime +
            env.writeTime)
        | .ok _ => none

/-- Number of remote API calls a step trace contains. -/
def remoteCount (trace : List String) : Nat :=
  trace.countP (fun s => s = "transcribe" || s = "process_text")

/-- The accumulation loop of `process_files` (`results = []` … `results.append`),
with the environment indexed by batch position. -/
def Pipeline.processFilesGo (env : Nat → StepEnv) :
    List AudioFile → Nat → List ProcessingResult → List ProcessingResult
  | [], _, results => results
  | af :: rest, i, results =>
    Pipeline.processFilesGo env rest (i + 1) (results ++ [(Pipeline.process_file (env i) af).1])

/-- `Pipeline.process_files`. -/
def Pipeline.process_files (env : Nat → StepEnv) (files : List AudioFile) :
    List ProcessingResult :=
  Pipeline.processFilesGo env files 0 []

/-- `CostEstimate`: the dictionary returned by `Pipeline.estimate_cost`. -/
structure CostEstimate where
  transcription : ℚ
  text_processing : ℚ
  total : ℚ
deriving Repr, DecidableEq

/-- The transcription-cost accumulator of `Pipeline.estimate_cost`. -/
def rawTranscriptionCost (files : List AudioFile) : ℚ :=
  files.foldl (fun acc af => acc + TranscriptionService.estimate_cost af.durationSeconds) 0

/-- The text-processing-cost accumulator of `Pipeline.estimate_cost`:
`estimated_words = duration/60*150`, `estimated_chars = words*6`, and the cost
of a string of `int(estimated_chars)` characters (`"x" * n` is empty for
negative `n`). -/
def rawTextProcessingCost (files : List AudioFile) : ℚ :=
  files.foldl
    (fun acc af =>
      acc + TextProcessor.estimate_cost_len (pyInt (af.durationSeconds / 60 * 150 * 6)).toNat) 0

/-- `Pipeline.estimate_cost`: duration-driven, computed with no environment
(hence before any network call). -/
def Pipeline.estimate_cost (files : List AudioFile) : CostEstimate :=
  { transcription := round4 (rawTranscriptionCost files),
    text_processing := round4 (rawTextProcessingCost files),
    total := round4 (rawTranscriptionCost files + rawTextProcessingCost files) }

/-! ## Attribute lookup on `Pipeline` (for the combined-mode workflow).

`src/cli.py` invokes `pipeline.process_files_combined(audio_files)` in combined
mode; Python resolves the attribute against the methods the `Pipeline` class
defines. -/

/-- The methods defined by `class Pipeline` in src/pipeline.py. -/
def Pipeline.methods : List String :=
  ["__init__", "process_file", "process_files", "_build_metadata", "estimate_cost",
   "get_summary"]

/-- Python attribute lookup for a `Pipeline` method: `AttributeError` when the
class defines no such method. -/
def Pipeline.getMethod (attr : String) : Except String String :=
  if Pipeline.methods.contains attr then .ok attr
  else .error ("'Pipeline' object has no attribute '" ++ attr ++ "'")

/-! ## Keyword binding of the `TextProcessor` construction in `Pipeline.__init__`.

`Pipeline.__init__` constructs `TextProcessor(api_key=…, model=…,
filler_words=…, aggressiveness=…)`; Python binds each keyword against the
parameter list of `TextProcessor.__init__`. -/

/-- The (non-`self`) parameters of `TextProcessor.__init__` (src/text_processor.py). -/
def TextProcessor.initParams : List String :=
  ["api_key", "model", "filler_words_english", "filler_words_chinese", "aggressiveness"]

/-- The keyword arguments `Pipeline.__init__` passes to `TextProcessor`
(src/pipeline.py, lines 67–72). -/
def Pipeline.textProcessorKwargs : List String :=
  ["api_key", "model", "filler_words", "aggressiveness"]

/-- Python keyword binding: a keyword not matching any parameter raises
`TypeError: __init__() got an unexpected keyword argument '<kw>'`. -/
def bindKwargs (params kwargs : List String) : Except String Unit :=
  match kwargs.find? (fun k => !params.contains k) with
  | some k => .error ("__init__() got an unexpected keyword argument '" ++ k ++ "'")
  | none => .ok ()

/-- The outcome of the `TextProcessor(...)` call inside `Pipeline.__init__`,
for every configuration (the keyword names are literal in the source and do
not depend on the configuration). -/
def Pipeline.initTextProcessorBinding : Except String Unit :=
  bindKwargs TextProcessor.initParams Pipeline.textProcessorKwargs

/-! Inputs used by the witness theorems. -/

/-- A step environment whose transcription step fails. -/
def envFailT : Nat → StepEnv := fun _ =>
  { validateTime := 1, transcribeRes := .error (.transcription "boom"), transcribeTime := 1,
    cleanRes := fun _ => .ok "", cleanTime := 1, formatDoc := id, formatTime := 1,
    writeRes := fun _ => .ok "out.md", writeTime := 1 }

/-- A step environment where every step succeeds. -/
def envOk : Nat → StepEnv := fun _ =>
  { validateTime := 1, transcribeRes := .ok "raw words", transcribeTime := 1,
    cleanRes := fun t => .ok t, cleanTime := 1, formatDoc := id, formatTime := 1,
    writeRes := fun _ => .ok "out.md", writeTime := 1 }

/-- A small in-range recording. -/
def afSmall : AudioFile := { name := "a.m4a", sizeBytes := 100, durationSeconds := 60 }

/-- A recording one byte over the upload ceiling. -/
def afBig : AudioFile := { name := "big.m4a", sizeBytes := 26214401, durationSeconds := 60 }

/-- Structural companion of `Pipeline.processFilesGo` (same iteration without
the accumulator), used to state the order/length lemmas. -/
def processFilesSpec (env : Nat → StepEnv) : List AudioFile → Nat → List ProcessingResult
  | [], _ => []
  | af :: rest, i => (Pipeline.process_file (env i) af).1 :: processFilesSpec env rest (i + 1)

/-! ## Faithful character fragment and fuel-indexed evaluators (C8).

The character classes above model Python's `\w`, `\s` and `re.IGNORECASE`
exactly on ASCII, on the CJK unified ideographs (no word-ness change, no case
folding, not whitespace), on the ideographic space and on the no-break space;
outside this fragment Python's Unicode classes are wider.  `faithfulChar`
carves out the fragment, and the filler-pass theorem is stated for texts over
it.  The fuel-indexed twins of the five scanners are structurally recursive
(hence kernel-evaluable) companions, proved equal to the scanners whenever the
fuel covers the input length; they are used to settle concrete instances. -/

/-- Characters on which `isWordC`/`isSpC`/`lowCh` agree exactly with Python's
`\w`, `\s` and `re.IGNORECASE` folding: ASCII, the CJK unified ideographs,
the ideographic space and the no-break space. -/
def faithfulChar (c : Char) : Bool :=
  decide (c.toNat ≤ 127 ∨ (19968 ≤ c.toNat ∧ c.toNat ≤ 40959) ∨ c.toNat = 12288 ∨
    c.toNat = 160)

/-- Fuel-indexed evaluation twin of `subWW`. -/
def subWWF (f : List Char) : Nat → Bool → List Char → List Char
  | 0, _, _ => []
  | _ + 1, _, [] => []
  | fuel + 1, pw, c :: rest =>
    if wwAt f pw (c :: rest) then
      ' ' :: subWWF f fuel (isWordC ((c :: rest).getD (f.length - 1) ' '))
        (rest.drop (f.length - 1))
    else
      c :: subWWF f fuel (isWordC c) rest

/-- Fuel-indexed evaluation twin of `sub1`. -/
def sub1F (f : List Char) : Nat → Bool → List Char → List Char
  | 0, _, _ => []
  | _ + 1, _, [] => []
  | fuel + 1, pw, c :: rest =>
    if p1At f pw (c :: rest) then
      ' ' :: sub1F f fuel
        (isWordC ((((c :: rest).drop f.length).takeWhile isCS).getLastD c))
        (rest.drop (f.length + (((c :: rest).drop f.length).takeWhile isCS).length - 1))
    else
      c :: sub1F f fuel (isWordC c) rest

/-- Fuel-indexed evaluation twin of `sub2`. -/
def sub2F (f : List Char) : Nat → Bool → List Char → List Char
  | 0, _, _ => []
  | _ + 1, _, [] => []
  | fuel + 1, pw, c :: rest =>
    if p2At f (c :: rest) then
      ' ' :: sub2F f fuel
        (isWordC ((((c :: rest).drop ((c :: rest).takeWhile isCS).length)).getD
          (f.length - 1) ' '))
        (rest.drop (((c :: rest).takeWhile isCS).length + f.length - 1))
    else
      c :: sub2F f fuel (isWordC c) rest

/-- Fuel-indexed evaluation twin of `collapseWS`. -/
def collapseWSF : Nat → List Char → List Char
  | 0, _ => []
  | _ + 1, [] => []
  | fuel + 1, c :: rest =>
    if isSpC c then ' ' :: collapseWSF fuel (rest.dropWhile isSpC)
    else c :: collapseWSF fuel rest

/-- Fuel-indexed evaluation twin of `subPunctWS`. -/
def subPunctWSF : Nat → List Char → List Char
  | 0, _ => []
  | _ + 1, [] => []
  | fuel + 1, c :: rest =>
    if isSpC c then
      match rest.dropWhile isSpC with
      | p :: tl =>
        if isPu p then p :: subPunctWSF fuel tl
        else (c :: rest.takeWhile isSpC) ++ subPunctWSF fuel (rest.dropWhile isSpC)
      | [] => c :: rest.takeWhile isSpC
    else c :: subPunctWSF fuel rest

/-! # Theorems -/

/-! ## Pipeline batch lemmas. -/

theorem processFilesGo_eq (env : Nat → StepEnv) :
    ∀ (files : List AudioFile) (i : Nat) (acc : List ProcessingResult),
      Pipeline.processFilesGo env files i acc = acc ++ processFilesSpec env files i := by
  intro files
  induction files with
  | nil => intro i acc; simp [Pipeline.processFilesGo, processFilesSpec]
  | cons af rest ih =>
    intro i acc
    simp [Pipeline.processFilesGo, processFilesSpec, ih]

theorem processFilesSpec_length (env : Nat → StepEnv) :
    ∀ (files : List AudioFile) (i : Nat), (processFilesSpec env files i).length = files.length := by
  intro files
  induction files with
  | nil => intro i; rfl
  | cons af rest ih => intro i; simp [processFilesSpec, ih]

theorem processFilesSpec_get (env : Nat → StepEnv) :
    ∀ (files : List AudioFile) (i j : Nat) (h : j < files.length),
      (processFilesSpec env files i)[j]? =
        some ((Pipeline.process_file (env (i + j)) (files.get ⟨j, h⟩)).1) := by
  intro files
  induction files with
  | nil => intro i j h; exact absurd h (by simp)
  | cons af rest ih =>
    intro i j h
    cases j with
    | zero => simp [processFilesSpec]
    | succ j =>
      have hj : j < rest.length := by simpa using Nat.lt_of_succ_lt_succ h
      have := ih (i + 1) j hj
      simp only [processFilesSpec, List.getElem?_cons_succ, this, List.get]
      ring_nf

theorem process_files_eq (env : Nat → StepEnv) (files : List AudioFile) :
    Pipeline.process_files env files = processFilesSpec env files 0 := by
  simp [Pipeline.process_files, processFilesGo_eq]

theorem process_files_length (env : Nat → StepEnv) (files : List AudioFile) :
    (Pipeline.process_files env files).length = files.length := by
  rw [process_files_eq]; exact processFilesSpec_length env files 0

theorem process_files_get (env : Nat → StepEnv) (files : List AudioFile) (i : Nat)
    (h : i < files.length) :
    (Pipeline.process_files env files)[i]? =
      some ((Pipeline.process_file (env i) (files.get ⟨i, h⟩)).1) := by
  rw [process_files_eq]
  simpa using processFilesSpec_get env files 0 i h

theorem process_file_of_firstFailure (env : StepEnv) (af : AudioFile) (e : PipeError) (t : Nat)
    (h : Pipeline.firstFailure env af = some (e, t)) :
    (Pipeline.process_file env af).1 = failRes af e t := by
  unfold Pipeline.firstFailure at h
  unfold Pipeline.process_file
  cases hv : validate_file_size af.name af.sizeBytes with
  | error e' => simp only [hv] at h ⊢; simp_all
  | ok _ =>
    simp only [hv] at h ⊢
    cases ht : env.transcribeRes with
    | error e' => simp only [ht] at h ⊢; simp_all
    | ok raw =>
      simp only [ht] at h ⊢
      cases hc : env.cleanRes raw with
      | error e' => simp only [hc] at h ⊢; simp_all
      | ok cleaned =>
        simp only [hc] at h ⊢
        cases hw : env.writeRes (env.formatDoc cleaned) with
        | error e' => simp only [hw] at h ⊢; simp_all
        | ok p => simp only [hw] at h ⊢; simp_all

/-! ## Claim theorems: orchestrator (C1, C4, C6). -/

/-- C1: every per-item error raised while processing one item — the domain
errors (`TranscriptionError`, `TextProcessingError`, `FileWriteError`) and any
unexpected exception — is caught inside `Pipeline.process_file` and converted
into a `ProcessingResult` with `success = false` carrying the error's message
(`str(e)`, or `"Unexpected error: …"` for the catch-all) and the elapsed time
so far; `Pipeline.process_files` is total (no exception propagates out of it)
and the i-th outcome is produced regardless of other items, so processing
continues with the next item. -/
theorem claim_c1_item_errors_contained (env : Nat → StepEnv) (files : List AudioFile)
    (i : Nat) (h : i < files.length) (e : PipeError) (t : Nat)
    (hfail : Pipeline.firstFailure (env i) (files.get ⟨i, h⟩) = some (e, t)) :
    (Pipeline.process_files env files).length = files.length ∧
    (Pipeline.process_files env files)[i]? =
      some { audio_file := files.get ⟨i, h⟩, success := false, output_path := none,
             error := some e.caught, transcript_length := 0, processing_time := t } := by
  refine ⟨process_files_length env files, ?_⟩
  rw [process_files_get env files i h,
    process_file_of_firstFailure (env i) (files.get ⟨i, h⟩) e t hfail]
  rfl

/-- Witness for C1: a one-item batch whose transcription step raises
`TranscriptionError("boom")` after 2 ticks. -/
theorem claim_c1_witness :
    Pipeline.firstFailure (envFailT 0) afSmall = some (.transcription "boom", 2) ∧
    (Pipeline.process_files envFailT [afSmall]).length = 1 ∧
    (Pipeline.process_files envFailT [afSmall])[0]? =
      some { audio_file := afSmall, success := false, output_path := none,
             error := some "boom", transcript_length := 0, processing_time := 2 } := by
  have hv : validate_file_size afSmall.name afSmall.sizeBytes = .ok () := by
    unfold validate_file_size afSmall
    norm_num
  have h0 : Pipeline.firstFailure (envFailT 0) afSmall = some (.transcription "boom", 2) := by
    simp [Pipeline.firstFailure, hv, envFailT]
  have h := claim_c1_item_errors_contained envFailT [afSmall] 0 (by decide)
    (.transcription "boom") 2 h0
  exact ⟨h0, h.1, h.2⟩

/-- C4: for every input list processed in single mode, `Pipeline.process_files`
returns one `ProcessingResult` per input, in input order: the result list has
the input's length and its i-th element is the outcome of the i-th input file. -/
theorem claim_c4_batch_order (env : Nat → StepEnv) (files : List AudioFile) :
    (Pipeline.process_files env files).length = files.length ∧
    ∀ (i : Nat) (h : i < files.length),
      (Pipeline.process_files env files)[i]? =
        some ((Pipeline.process_file (env i) (files.get ⟨i, h⟩)).1) :=
  ⟨process_files_length env files, fun i h => process_files_get env files i h⟩

/-- Witness for C4: a two-item batch (one success, one failure) keeps length
and order. -/
theorem claim_c4_witness :
    (Pipeline.process_files (fun i => if i = 0 then envOk 0 else envFailT 0)
        [afSmall, afBig]).length = 2 ∧
    (Pipeline.process_files (fun i => if i = 0 then envOk 0 else envFailT 0)
        [afSmall, afBig])[1]? =
      some ((Pipeline.process_file (envFailT 0) afBig).1) := by
  have h := claim_c4_batch_order (fun i => if i = 0 then envOk 0 else envFailT 0)
    [afSmall, afBig]
  exact ⟨h.1, h.2 1 (by decide)⟩

/-- C6: a recording whose size exceeds 25 MB (26,214,400 bytes) is rejected by
the local synchronous size check: the workflow fails with the
`TranscriptionError` of `validate_file_size`, the step trace stops at the
validation step, and no remote call is issued. -/
theorem claim_c6_oversize_no_remote_call (env : StepEnv) (af : AudioFile)
    (hsize : 26214400 < af.sizeBytes) :
    validate_file_size af.name af.sizeBytes =
      .error (.transcription (sizeErrMsg af.name af.sizeBytes)) ∧
    (Pipeline.process_file env af).1.success = false ∧
    (Pipeline.process_file env af).1.error = some (sizeErrMsg af.name af.sizeBytes) ∧
    (Pipeline.process_file env af).2 = ["validate_size"] ∧
    remoteCount (Pipeline.process_file env af).2 = 0 := by
  have hq : ((af.sizeBytes : ℚ)) / (1024 * 1024) > 25 := by
    rw [gt_iff_lt, lt_div_iff₀ (by norm_num)]
    have : ((26214400 : ℕ) : ℚ) < (af.sizeBytes : ℚ) := by exact_mod_cast hsize
    calc (25 : ℚ) * (1024 * 1024) = ((26214400 : ℕ) : ℚ) := by norm_num
    _ < _ := this
  have hv : validate_file_size af.name af.sizeBytes =
      .error (.transcription (sizeErrMsg af.name af.sizeBytes)) := by
    unfold validate_file_size
    rw [if_pos hq]
  refine ⟨hv, ?_, ?_, ?_, ?_⟩ <;>
    simp [Pipeline.process_file, hv, failRes, PipeError.caught, PipeError.str, remoteCount]

/-- Witness for C6: a 26,214,401-byte recording is rejected locally. -/
theorem claim_c6_witness :
    26214400 < afBig.sizeBytes ∧
    (Pipeline.process_file (envOk 0) afBig).1.success = false ∧
    (Pipeline.process_file (envOk 0) afBig).2 = ["validate_size"] ∧
    remoteCount (Pipeline.process_file (envOk 0) afBig).2 = 0 := by
  have h := claim_c6_oversize_no_remote_call (envOk 0) afBig (by decide)
  exact ⟨by decide, h.2.1, h.2.2.2.1, h.2.2.2.2⟩

/-! ## Claim theorems: construction and combined mode (C2, C3). -/

/-- C2: for every configuration, constructing a `Pipeline` fails with a
`TypeError` before any item can be processed: the `TextProcessor(...)` call in
`Pipeline.__init__` passes the keyword `filler_words`, which
`TextProcessor.__init__` (whose parameters are `api_key`, `model`,
`filler_words_english`, `filler_words_chinese`, `aggressiveness`) does not
accept.  The keyword list is literal in the source, so the failure is
configuration-independent and no `Pipeline` operation is reachable. -/
theorem claim_c2_pipeline_init_type_error :
    Pipeline.initTextProcessorBinding =
      .error "__init__() got an unexpected keyword argument 'filler_words'" ∧
    TextProcessor.initParams.contains "filler_words" = false := by
  constructor <;> rfl

/-- C3 (counterexample evidence): `class Pipeline` defines no method
`process_files_combined`, so the CLI's combined-mode call
`pipeline.process_files_combined(audio_files)` raises `AttributeError` instead
of running the combined workflow. -/
theorem claim_c3_combined_method_missing :
    Pipeline.getMethod "process_files_combined" =
      .error "'Pipeline' object has no attribute 'process_files_combined'" ∧
    Pipeline.methods.contains "process_files_combined" = false := by
  constructor <;> rfl

/-! ## Claim theorem: filler pass at `low` (C9). -/

/-- C9: at aggressiveness `low` the deterministic filler-word pass is the
identity: it returns its input unchanged — no filler removal, no whitespace
normalization, no trimming. -/
theorem claim_c9_low_is_identity (fillerWords : List String) (text : String) :
    TextProcessor.removeFillerPattern "low" fillerWords text = text := by
  simp [TextProcessor.removeFillerPattern]

/-! ## Claim theorem: transcription retry policy (C5). -/

/-- C5: `TranscriptionService.transcribe` makes at most 3 attempts.  Before a
retry it sleeps `RETRY_DELAY * 2^(attempt-1)` = `2 * 2^(attempt-1)` seconds
after a rate-limit failure (exponential backoff, base 2 s) and
`RETRY_DELAY * attempt` = `2 * attempt` seconds after a connection failure
(linear backoff) — `delayFor` is exactly this delay table.  Any other remote
API failure raises `TranscriptionError` immediately, with no further attempt
and no sleep (shown at each of the three attempts); and when all 3 attempts
fail with retryable errors, `TranscriptionError` is raised. -/
theorem claim_c5_retry_policy (env : Nat → AttemptOut) :
    (TranscriptionService.transcribe env).attemptsMade ≤ 3 ∧
    (∀ m, env 1 = .apiError m →
      (TranscriptionService.transcribe env).result = .error ("OpenAI API error: " ++ m) ∧
      (TranscriptionService.transcribe env).attemptsMade = 1 ∧
      (TranscriptionService.transcribe env).sleeps = []) ∧
    (∀ m, retryable (env 1) → env 2 = .apiError m →
      (TranscriptionService.transcribe env).result = .error ("OpenAI API error: " ++ m) ∧
      (TranscriptionService.transcribe env).attemptsMade = 2) ∧
    (∀ m, retryable (env 1) → retryable (env 2) → env 3 = .apiError m →
      (TranscriptionService.transcribe env).result = .error ("OpenAI API error: " ++ m) ∧
      (TranscriptionService.transcribe env).attemptsMade = 3) ∧
    (¬retryable (env 1) → (TranscriptionService.transcribe env).sleeps = []) ∧
    (retryable (env 1) → ¬retryable (env 2) →
      (TranscriptionService.transcribe env).sleeps = [delayFor (env 1) 1]) ∧
    (retryable (env 1) → retryable (env 2) →
      (TranscriptionService.transcribe env).sleeps = [delayFor (env 1) 1, delayFor (env 2) 2]) ∧
    (retryable (env 1) → retryable (env 2) → retryable (env 3) →
      (TranscriptionService.transcribe env).attemptsMade = 3 ∧
      ∃ msg, (TranscriptionService.transcribe env).result = .error msg) := by
  rcases h1 : env 1 with t1 | m1 | m1 | m1 | m1 <;>
    rcases h2 : env 2 with t2 | m2 | m2 | m2 | m2 <;>
      rcases h3 : env 3 with t3 | m3 | m3 | m3 | m3 <;>
        simp_all [TranscriptionService.transcribe, transcribeGo, MAX_RETRIES, RETRY_DELAY,
          retryable, delayFor]

/-- Witness for C5: attempt 1 hits the rate limit (sleep `2 = 2*2^0`),
attempt 2 hits a connection failure (sleep `4 = 2*2`), attempt 3 fails with a
plain API error, which is fatal immediately on the third attempt. -/
theorem claim_c5_witness :
    retryable ((fun k => if k = 1 then AttemptOut.rateLimit "r"
      else if k = 2 then AttemptOut.connError "c" else AttemptOut.apiError "boom") 1) ∧
    (TranscriptionService.transcribe (fun k => if k = 1 then AttemptOut.rateLimit "r"
      else if k = 2 then AttemptOut.connError "c" else AttemptOut.apiError "boom")).result =
        .error ("OpenAI API error: " ++ "boom") ∧
    (TranscriptionService.transcribe (fun k => if k = 1 then AttemptOut.rateLimit "r"
      else if k = 2 then AttemptOut.connError "c" else AttemptOut.apiError "boom")).attemptsMade
        = 3 ∧
    (TranscriptionService.transcribe (fun k => if k = 1 then AttemptOut.rateLimit "r"
      else if k = 2 then AttemptOut.connError "c" else AttemptOut.apiError "boom")).sleeps
        = [2, 4] := by
  have h := claim_c5_retry_policy (fun k => if k = 1 then AttemptOut.rateLimit "r"
    else if k = 2 then AttemptOut.connError "c" else AttemptOut.apiError "boom")
  refine ⟨trivial, ?_, ?_, ?_⟩
  · exact (h.2.2.2.1 "boom" trivial trivial rfl).1
  · exact (h.2.2.2.1 "boom" trivial trivial rfl).2
  · have := h.2.2.2.2.2.2.1 trivial trivial
    simpa [delayFor, RETRY_DELAY] using this

/-! ## FileWriter probing-loop lemmas (C7). -/

theorem getUniqueGo_ok_free (fs : String → Bool) (filename stem ext : String) :
    ∀ (fuel counter : Nat) (p : String),
      getUniqueGo fs filename stem ext counter fuel = .ok p → fs p = false := by
  intro fuel
  induction fuel with
  | zero => intro counter p h; simp [getUniqueGo] at h
  | succ fuel ih =>
    intro counter p h
    unfold getUniqueGo at h
    by_cases hfree : fs (probeName stem ext counter) = false
    · rw [if_pos hfree] at h
      cases h; exact hfree
    · rw [if_neg hfree] at h
      by_cases hcap : counter + 1 > 1000
      · rw [if_pos hcap] at h; cases h
      · rw [if_neg hcap] at h
        exact ih (counter + 1) p h

theorem getUniqueGo_finds_first (fs : String → Bool) (filename stem ext : String) :
    ∀ (fuel counter k : Nat), counter + fuel = 1001 → counter ≤ k → k ≤ 1000 →
      (∀ j, counter ≤ j → j < k → fs (probeName stem ext j) = true) →
      fs (probeName stem ext k) = false →
      getUniqueGo fs filename stem ext counter fuel = .ok (probeName stem ext k) := by
  intro fuel
  induction fuel with
  | zero => intro counter k hfc hck hk _ _; omega
  | succ fuel ih =>
    intro counter k hfc hck hk hocc hfree
    unfold getUniqueGo
    by_cases hek : counter = k
    · subst hek; rw [if_pos hfree]
    · have hlt : counter < k := lt_of_le_of_ne hck hek
      have hcnt : fs (probeName stem ext counter) = true := hocc counter le_rfl hlt
      rw [if_neg (by simp [hcnt])]
      have hcap : ¬counter + 1 > 1000 := by omega
      rw [if_neg hcap]
      exact ih (counter + 1) k (by omega) (by omega) hk
        (fun j hj1 hj2 => hocc j (by omega) hj2) hfree

theorem getUniqueGo_exhausted (fs : String → Bool) (filename stem ext : String) :
    ∀ (fuel counter : Nat), counter + fuel = 1001 → 1 ≤ counter →
      (∀ j, counter ≤ j → j ≤ 1000 → fs (probeName stem ext j) = true) →
      getUniqueGo fs filename stem ext counter fuel =
        .error ("Could not find unique filename for " ++ filename ++ " after 1000 attempts") := by
  intro fuel
  induction fuel with
  | zero => intro counter hfc _ _; simp [getUniqueGo]
  | succ fuel ih =>
    intro counter hfc hc1 hocc
    unfold getUniqueGo
    have hcnt : fs (probeName stem ext counter) = true := hocc counter le_rfl (by omega)
    rw [if_neg (by simp [hcnt])]
    by_cases hcap : counter + 1 > 1000
    · rw [if_pos hcap]
    · rw [if_neg hcap]
      exact ih (counter + 1) (by omega) (by omega) (fun j hj1 hj2 => hocc j (by omega) hj2)

/-- C7: `FileWriter` resolves name collisions deterministically.  If the
target name is free it is used verbatim; otherwise the probes
`<stem>_1<ext>, <stem>_2<ext>, …` are tried in order and the first free one is
used; a returned path is always a free one (no file is ever overwritten); if
the target and all 1000 suffixed probes exist, `write` fails with the
`FileWriteError` message instead; and writing `note.md` twice into an empty
folder yields `note.md` and then the distinct name `note_1.md`. -/
theorem claim_c7_collision_resolution (fs : String → Bool) (filename : String) :
    (fs filename = false → FileWriter.getUniquePath fs filename = .ok filename) ∧
    (∀ p, FileWriter.getUniquePath fs filename = .ok p → fs p = false) ∧
    (∀ k, 1 ≤ k → k ≤ 1000 → fs filename = true →
      (∀ j, 1 ≤ j → j < k →
        fs (probeName (splitStemExt filename).1 (splitStemExt filename).2 j) = true) →
      fs (probeName (splitStemExt filename).1 (splitStemExt filename).2 k) = false →
      FileWriter.getUniquePath fs filename =
        .ok (probeName (splitStemExt filename).1 (splitStemExt filename).2 k)) ∧
    (fs filename = true →
      (∀ j, 1 ≤ j → j ≤ 1000 →
        fs (probeName (splitStemExt filename).1 (splitStemExt filename).2 j) = true) →
      FileWriter.writePath fs filename =
        .error ("Failed to write file " ++ filename ++ ": " ++
          ("Could not find unique filename for " ++ filename ++ " after 1000 attempts"))) ∧
    FileWriter.writePath (fun _ => false) "note.md" = .ok "note.md" ∧
    FileWriter.writePath (FileWriter.fsAfter (fun _ => false) "note.md") "note.md" =
      .ok "note_1.md" ∧ "note_1.md" ≠ "note.md" := by
  refine ⟨?_, ?_, ?_, ?_, by rfl, by rfl, by decide⟩
  · intro hfree
    unfold FileWriter.getUniquePath
    rw [if_pos hfree]
  · intro p hok
    unfold FileWriter.getUniquePath at hok
    by_cases hfree : fs filename = false
    · rw [if_pos hfree] at hok; cases hok; exact hfree
    · rw [if_neg hfree] at hok
      exact getUniqueGo_ok_free fs filename _ _ 1000 1 p hok
  · intro k hk1 hk2 hocc hrest hfree
    unfold FileWriter.getUniquePath
    rw [if_neg (by simp [hocc])]
    exact getUniqueGo_finds_first fs filename _ _ 1000 1 k (by omega) hk1 hk2
      (fun j hj1 hj2 => hrest j hj1 hj2) hfree
  · intro hocc hall
    unfold FileWriter.writePath FileWriter.getUniquePath
    rw [if_neg (by simp [hocc]),
      getUniqueGo_exhausted fs filename _ _ 1000 1 (by omega) le_rfl
        (fun j hj1 hj2 => hall j hj1 hj2)]

/-- Witness for C7: with only `note.md` present, probe 1 is free, so the write
resolves to `note_1.md`. -/
theorem claim_c7_witness :
    ((fun s => s = "note.md") : String → Bool) "note.md" = true ∧
    FileWriter.getUniquePath (fun s => s = "note.md") "note.md" = .ok "note_1.md" := by
  have h := (claim_c7_collision_resolution (fun s => s = "note.md") "note.md").2.2.1
    1 le_rfl (by omega) (by decide) (fun j hj1 hj2 => absurd (lt_of_le_of_lt hj1 hj2)
      (lt_irrefl 1)) (by decide)
  exact ⟨by decide, by simpa using h⟩

/-! ## Rounding and cost lemmas (C10). -/

theorem le_roundHalfEven (x : ℚ) : ⌊x⌋ ≤ roundHalfEven x := by
  unfold roundHalfEven; split_ifs <;> omega

theorem roundHalfEven_le (x : ℚ) : roundHalfEven x ≤ ⌊x⌋ + 1 := by
  unfold roundHalfEven; split_ifs <;> omega

theorem roundHalfEven_mono {x y : ℚ} (h : x ≤ y) : roundHalfEven x ≤ roundHalfEven y := by
  have hf : ⌊x⌋ ≤ ⌊y⌋ := Int.floor_le_floor h
  rcases eq_or_lt_of_le hf with heq | hlt
  · unfold roundHalfEven
    rw [← heq]
    have hfr : x - ⌊x⌋ ≤ y - (⌊x⌋ : ℚ) := by linarith
    split_ifs <;> first | omega | linarith
  · calc roundHalfEven x ≤ ⌊x⌋ + 1 := roundHalfEven_le x
    _ ≤ ⌊y⌋ := by omega
    _ ≤ roundHalfEven y := le_roundHalfEven y

theorem roundHalfEven_nonneg {x : ℚ} (h : 0 ≤ x) : 0 ≤ roundHalfEven x :=
  le_trans (Int.floor_nonneg.mpr h) (le_roundHalfEven x)

theorem round4_mono {x y : ℚ} (h : x ≤ y) : round4 x ≤ round4 y := by
  unfold round4
  have : roundHalfEven (x * 10000) ≤ roundHalfEven (y * 10000) :=
    roundHalfEven_mono (by linarith)
  have hc : ((roundHalfEven (x * 10000) : ℚ)) ≤ (roundHalfEven (y * 10000) : ℚ) := by
    exact_mod_cast this
  linarith

theorem round4_nonneg {x : ℚ} (h : 0 ≤ x) : 0 ≤ round4 x := by
  unfold round4
  have : (0 : ℚ) ≤ (roundHalfEven (x * 10000) : ℚ) := by
    exact_mod_cast roundHalfEven_nonneg (by linarith)
  linarith

theorem foldl_add_eq {α : Type} (g : α → ℚ) :
    ∀ (l : List α) (acc : ℚ), l.foldl (fun a x => a + g x) acc = acc + (l.map g).sum := by
  intro l
  induction l with
  | nil => intro acc; simp
  | cons x rest ih => intro acc; simp [ih]; ring

theorem rawTranscriptionCost_eq (files : List AudioFile) :
    rawTranscriptionCost files =
      (files.map (fun af => TranscriptionService.estimate_cost af.durationSeconds)).sum := by
  unfold rawTranscriptionCost
  rw [foldl_add_eq]; ring

theorem rawTextProcessingCost_eq (files : List AudioFile) :
    rawTextProcessingCost files =
      (files.map (fun af =>
        TextProcessor.estimate_cost_len (pyInt (af.durationSeconds / 60 * 150 * 6)).toNat)).sum := by
  unfold rawTextProcessingCost
  rw [foldl_add_eq]; ring

theorem tCost_nonneg {d : ℚ} (h : 0 ≤ d) : 0 ≤ TranscriptionService.estimate_cost d := by
  unfold TranscriptionService.estimate_cost
  positivity

theorem tCost_mono {a b : ℚ} (h : a ≤ b) :
    TranscriptionService.estimate_cost a ≤ TranscriptionService.estimate_cost b := by
  unfold TranscriptionService.estimate_cost
  gcongr

theorem xCost_nonneg (n : Nat) : 0 ≤ TextProcessor.estimate_cost_len n := by
  unfold TextProcessor.estimate_cost_len
  positivity

theorem xCost_len_mono {m n : Nat} (h : m ≤ n) :
    TextProcessor.estimate_cost_len m ≤ TextProcessor.estimate_cost_len n := by
  unfold TextProcessor.estimate_cost_len
  gcongr <;> exact_mod_cast h

theorem xCost_mono {a b : ℚ} (h0 : 0 ≤ a) (h : a ≤ b) :
    TextProcessor.estimate_cost_len (pyInt (a / 60 * 150 * 6)).toNat ≤
      TextProcessor.estimate_cost_len (pyInt (b / 60 * 150 * 6)).toNat := by
  apply xCost_len_mono
  have ha : (0 : ℚ) ≤ a / 60 * 150 * 6 := by
    have : (0 : ℚ) ≤ a / 60 := div_nonneg h0 (by norm_num)
    nlinarith
  have hb : (0 : ℚ) ≤ b / 60 * 150 * 6 := le_trans ha (by
    have : a / 60 ≤ b / 60 := by gcongr
    nlinarith)
  have hle : a / 60 * 150 * 6 ≤ b / 60 * 150 * 6 := by
    have : a / 60 ≤ b / 60 := by gcongr
    nlinarith
  unfold pyInt
  rw [if_pos ha, if_pos hb]
  exact Int.toNat_le_toNat (Int.floor_le_floor hle)

theorem rawT_nonneg (files : List AudioFile) (h : ∀ af ∈ files, 0 ≤ af.durationSeconds) :
    0 ≤ rawTranscriptionCost files := by
  rw [rawTranscriptionCost_eq]
  apply List.sum_nonneg
  intro x hx
  rcases List.mem_map.mp hx with ⟨af, hmem, rfl⟩
  exact tCost_nonneg (h af hmem)

theorem rawX_nonneg (files : List AudioFile) : 0 ≤ rawTextProcessingCost files := by
  rw [rawTextProcessingCost_eq]
  apply List.sum_nonneg
  intro x hx
  rcases List.mem_map.mp hx with ⟨af, _, rfl⟩
  exact xCost_nonneg _

theorem rawT_mono (files pre : List AudioFile)
    (hF : List.Forall₂ (fun a b => a.durationSeconds ≤ b.durationSeconds) files pre) :
    rawTranscriptionCost files ≤ rawTranscriptionCost pre := by
  rw [rawTranscriptionCost_eq, rawTranscriptionCost_eq]
  induction hF with
  | nil => simp
  | cons hab _ ih =>
    simp only [List.map_cons, List.sum_cons]
    exact add_le_add (tCost_mono hab) ih

theorem rawX_mono (files pre : List AudioFile)
    (h1 : ∀ af ∈ files, 0 ≤ af.durationSeconds)
    (hF : List.Forall₂ (fun a b => a.durationSeconds ≤ b.durationSeconds) files pre) :
    rawTextProcessingCost files ≤ rawTextProcessingCost pre := by
  rw [rawTextProcessingCost_eq, rawTextProcessingCost_eq]
  induction hF with
  | nil => simp
  | @cons a b l1 l2 hab _ ih =>
    simp only [List.map_cons, List.sum_cons]
    refine add_le_add (xCost_mono (h1 a (by simp)) hab) (ih ?_)
    intro af hmem
    exact h1 af (by simp [hmem])

theorem rawT_append (l1 l2 : List AudioFile) :
    rawTranscriptionCost (l1 ++ l2) = rawTranscriptionCost l1 + rawTranscriptionCost l2 := by
  rw [rawTranscriptionCost_eq, rawTranscriptionCost_eq, rawTranscriptionCost_eq,
    List.map_append, List.sum_append]

theorem rawX_append (l1 l2 : List AudioFile) :
    rawTextProcessingCost (l1 ++ l2) =
      rawTextProcessingCost l1 + rawTextProcessingCost l2 := by
  rw [rawTextProcessingCost_eq, rawTextProcessingCost_eq, rawTextProcessingCost_eq,
    List.map_append, List.sum_append]

/-- C10: the cost estimate has non-negative `transcription`, `text_processing`
and `total` components; each component is monotonically non-decreasing in the
recordings' durations — increasing any recording's duration (pointwise
domination `hF`) or appending further recordings never decreases any
component; and the estimate is computed from duration metadata alone (it is
invariant under any change of the recordings that preserves durations, and its
definition takes no step environment, i.e. it runs before any network call). -/
theorem claim_c10_cost_estimate (files pre extra : List AudioFile)
    (h1 : ∀ af ∈ files, 0 ≤ af.durationSeconds)
    (hx : ∀ af ∈ extra, 0 ≤ af.durationSeconds)
    (hF : List.Forall₂ (fun a b => a.durationSeconds ≤ b.durationSeconds) files pre) :
    0 ≤ (Pipeline.estimate_cost files).transcription ∧
    0 ≤ (Pipeline.estimate_cost files).text_processing ∧
    0 ≤ (Pipeline.estimate_cost files).total ∧
    (Pipeline.estimate_cost files).transcription ≤
      (Pipeline.estimate_cost (pre ++ extra)).transcription ∧
    (Pipeline.estimate_cost files).text_processing ≤
      (Pipeline.estimate_cost (pre ++ extra)).text_processing ∧
    (Pipeline.estimate_cost files).total ≤ (Pipeline.estimate_cost (pre ++ extra)).total ∧
    (∀ g : AudioFile → AudioFile, (∀ af, (g af).durationSeconds = af.durationSeconds) →
      Pipeline.estimate_cost (files.map g) = Pipeline.estimate_cost files) := by
  have hT : rawTranscriptionCost files ≤ rawTranscriptionCost (pre ++ extra) := by
    rw [rawT_append]
    have h2 : 0 ≤ rawTranscriptionCost extra := rawT_nonneg extra hx
    have := rawT_mono files pre hF
    linarith
  have hX : rawTextProcessingCost files ≤ rawTextProcessingCost (pre ++ extra) := by
    rw [rawX_append]
    have h2 : 0 ≤ rawTextProcessingCost extra := rawX_nonneg extra
    have := rawX_mono files pre h1 hF
    linarith
  refine ⟨round4_nonneg (rawT_nonneg files h1), round4_nonneg (rawX_nonneg files),
    round4_nonneg (add_nonneg (rawT_nonneg files h1) (rawX_nonneg files)),
    round4_mono hT, round4_mono hX, round4_mono (by linarith), ?_⟩
  intro g hg
  have hT' : rawTranscriptionCost (files.map g) = rawTranscriptionCost files := by
    rw [rawTranscriptionCost_eq, rawTranscriptionCost_eq, List.map_map]
    congr 1
    apply List.map_congr_left
    intro af _
    simp [Function.comp, hg af]
  have hX' : rawTextProcessingCost (files.map g) = rawTextProcessingCost files := by
    rw [rawTextProcessingCost_eq, rawTextProcessingCost_eq, List.map_map]
    congr 1
    apply List.map_congr_left
    intro af _
    simp [Function.comp, hg af]
  unfold Pipeline.estimate_cost
  rw [hT', hX']

/-- Witness for C10: one 60 s recording, its duration raised to 120 s, plus an
appended 30 s recording. -/
theorem claim_c10_witness :
    (0 : ℚ) ≤ (Pipeline.estimate_cost [afSmall]).total ∧
    (Pipeline.estimate_cost [afSmall]).total ≤
      (Pipeline.estimate_cost ([{ name := "a.m4a", sizeBytes := 100, durationSeconds := 120 }] ++
        [{ name := "b.m4a", sizeBytes := 50, durationSeconds := 30 }])).total := by
  have h := claim_c10_cost_estimate [afSmall]
    [{ name := "a.m4a", sizeBytes := 100, durationSeconds := 120 }]
    [{ name := "b.m4a", sizeBytes := 50, durationSeconds := 30 }]
    (by intro af haf; simp at haf; subst haf; norm_num [afSmall])
    (by intro af haf; simp at haf; subst haf; norm_num)
    (List.Forall₂.cons (by norm_num [afSmall]) List.Forall₂.nil)
  exact ⟨h.2.2.1, h.2.2.2.2.2.1⟩

/-! ## Character-class lemmas (C8). -/

theorem lowN_word {a b : Nat} (h : lowN a = lowN b) : isWordN a = isWordN b := by
  unfold lowN at h
  unfold isWordN
  rw [decide_eq_decide]
  split_ifs at h <;> omega

theorem lowCh_word {a b : Char} (h : lowCh a = lowCh b) : isWordC a = isWordC b :=
  lowN_word h

theorem space_not_word {c : Char} (h : isSpC c = true) : isWordC c = false := by
  unfold isSpC at h
  unfold isWordC isWordN
  rw [decide_eq_true_iff] at h
  rw [decide_eq_false_iff_not]
  omega

theorem pu_not_word {c : Char} (h : isPu c = true) : isWordC c = false := by
  have hc : ((c = '.' ∨ c = ',') ∨ c = '!') ∨ c = '?' := by
    simpa [isPu, Bool.or_eq_true, decide_eq_true_iff] using h
  rcases hc with ((rfl | rfl) | rfl) | rfl <;> decide

theorem cs_not_word {c : Char} (h : isCS c = true) : isWordC c = false := by
  have hc : c = ',' ∨ isSpC c = true := by simpa [isCS] using h
  rcases hc with rfl | hs
  · decide
  · exact space_not_word hs

theorem cps_not_word {c : Char} (h : isCPS c = true) : isWordC c = false := by
  have hc : (c = ',' ∨ c = '.') ∨ isSpC c = true := by simpa [isCPS] using h
  rcases hc with (rfl | rfl) | hs
  · decide
  · decide
  · exact space_not_word hs

theorem word_not_space {c : Char} (h : isWordC c = true) : isSpC c = false := by
  unfold isWordC isWordN at h
  unfold isSpC
  rw [decide_eq_true_iff] at h
  rw [decide_eq_false_iff_not]
  omega

theorem word_not_cs {c : Char} (h : isWordC c = true) : isCS c = false := by
  by_contra hne
  have := cs_not_word (c := c) (by revert hne; cases isCS c <;> simp)
  rw [h] at this
  cases this

theorem space_isWordC : isWordC ' ' = false := by decide

/-! ## ciPref lemmas (C8). -/

theorem ciPref_length : ∀ (f s : List Char), ciPref f s = true → f.length ≤ s.length := by
  intro f
  induction f with
  | nil => intro s _; simp
  | cons a f2 ih =>
    intro s h
    cases s with
    | nil => simp [ciPref] at h
    | cons b t =>
      simp only [ciPref, Bool.and_eq_true] at h
      have := ih t h.2
      simp only [List.length_cons]
      omega

theorem ciPref_lowCh : ∀ (f s : List Char) (i : Nat), ciPref f s = true → i < f.length →
    lowCh (f.getD i ' ') = lowCh (s.getD i ' ') := by
  intro f
  induction f with
  | nil => intro s i _ hi; simp at hi
  | cons a f2 ih =>
    intro s i h hi
    cases s with
    | nil => simp [ciPref] at h
    | cons b t =>
      simp only [ciPref, Bool.and_eq_true, beq_iff_eq] at h
      cases i with
      | zero => simpa using h.1
      | succ i =>
        simp only [List.getD_cons_succ]
        exact ih t i h.2 (by simpa using Nat.lt_of_succ_lt_succ hi)

theorem ciPref_word {f s : List Char} (h : ciPref f s = true)
    (hw : ∀ c ∈ f, isWordC c = true) {i : Nat} (hi : i < f.length) :
    isWordC (s.getD i ' ') = true := by
  have h1 := ciPref_lowCh f s i h hi
  have h2 : isWordC (f.getD i ' ') = isWordC (s.getD i ' ') := lowCh_word h1
  rw [← h2]
  apply hw
  rw [List.getD_eq_getElem f ' ' hi]
  exact List.getElem_mem hi

/-! ## The run characterization of a whole-word match (C8). -/

/-- A case-insensitive match of an all-word pattern with a word boundary after
it is exactly a match of the leading maximal word run. -/
theorem aux_run_char : ∀ (f s : List Char), f ≠ [] → (∀ c ∈ f, isWordC c = true) →
    ((ciPref f s && bdryA f s) = true ↔ lows (s.takeWhile isWordC) = lows f) := by
  intro f
  induction f with
  | nil => intro s h; exact absurd rfl h
  | cons a f2 ih =>
    intro s _ hw
    have hwa : isWordC a = true := hw a (by simp)
    cases s with
    | nil =>
      constructor
      · intro h; exfalso; simp [ciPref] at h
      · intro h; exfalso; simp [lows] at h
    | cons b t =>
      constructor
      · intro h
        rw [Bool.and_eq_true] at h
        obtain ⟨h1, h2⟩ := h
        obtain ⟨hab, hcp⟩ : lowCh a = lowCh b ∧ ciPref f2 t = true := by
          simpa [ciPref] using h1
        have hwb : isWordC b = true := by rw [← lowCh_word hab]; exact hwa
        rw [List.takeWhile_cons, hwb]
        simp only [if_true]
        cases f2 with
        | nil =>
          have ht : t.takeWhile isWordC = [] := by
            cases t with
            | nil => rfl
            | cons d u =>
              have hd : isWordC d = false := by
                unfold bdryA at h2
                simpa [List.getD, hwb] using h2
              simp [List.takeWhile_cons, hd]
          rw [ht]; simp [lows, hab]
        | cons a2 f2t =>
          have hA : bdryA (a :: a2 :: f2t) (b :: t) = bdryA (a2 :: f2t) t := by
            unfold bdryA
            simp only [List.length_cons, List.drop_succ_cons, List.getD_cons_succ,
              Nat.add_sub_cancel]
          have hrec := (ih t (by simp) (fun c hc => hw c (by simp [hc]))).mp
            (by rw [Bool.and_eq_true]; exact ⟨hcp, by rw [← hA]; exact h2⟩)
          simp only [lows, List.map_cons] at hrec ⊢
          rw [hab, hrec]
      · intro h
        have hwb : isWordC b = true := by
          by_contra hne
          have hwb2 : isWordC b = false := by revert hne; cases isWordC b <;> simp
          rw [List.takeWhile_cons, hwb2] at h
          simp [lows] at h
        rw [List.takeWhile_cons, hwb] at h
        simp only [if_true, lows, List.map_cons, List.cons_eq_cons] at h
        obtain ⟨hab, htail⟩ := h
        rw [Bool.and_eq_true]
        cases f2 with
        | nil =>
          refine ⟨by simp [ciPref, hab], ?_⟩
          have ht : t.takeWhile isWordC = [] := by
            have h3 : List.map lowCh (t.takeWhile isWordC) = [] := by
              simpa [lows] using htail
            exact List.map_eq_nil_iff.mp h3
          unfold bdryA
          cases t with
          | nil => simpa [List.getD] using hwb
          | cons d u =>
            have hd : isWordC d = false := by
              by_contra hne
              have hd2 : isWordC d = true := by revert hne; cases isWordC d <;> simp
              rw [List.takeWhile_cons, hd2] at ht
              simp at ht
            simpa [List.getD, hwb, hd] using rfl
        | cons a2 f2t =>
          have hrec := (ih t (by simp) (fun c hc => hw c (by simp [hc]))).mpr htail
          rw [Bool.and_eq_true] at hrec
          have hA : bdryA (a :: a2 :: f2t) (b :: t) = bdryA (a2 :: f2t) t := by
            unfold bdryA
            simp only [List.length_cons, List.drop_succ_cons, List.getD_cons_succ,
              Nat.add_sub_cancel]
          refine ⟨by simp [ciPref, hab, hrec.1], by rw [hA]; exact hrec.2⟩

theorem lows_ne_nil {f : List Char} (hne : f ≠ []) : lows f ≠ [] := by
  cases f with
  | nil => exact absurd rfl hne
  | cons a f2 => simp [lows]

theorem lows_length (w : List Char) : (lows w).length = w.length := by
  simp [lows]

theorem word_head_of_lows {b : Char} {t f : List Char} (hne : f ≠ [])
    (h : lows ((b :: t).takeWhile isWordC) = lows f) : isWordC b = true := by
  by_contra hb
  have hb2 : isWordC b = false := by revert hb; cases isWordC b <;> simp
  rw [List.takeWhile_cons, hb2] at h
  exact lows_ne_nil hne (by simpa [lows] using h.symm)

/-- `\bf\b` matches at the front exactly when the previous character is
non-word and the pattern matches the whole leading word run. -/
theorem wwAt_iff {f : List Char} (hne : f ≠ []) (hw : ∀ c ∈ f, isWordC c = true)
    (pw : Bool) (s : List Char) :
    wwAt f pw s = true ↔ (pw = false ∧ lows (s.takeWhile isWordC) = lows f) := by
  unfold wwAt
  constructor
  · intro h
    simp only [Bool.and_eq_true] at h
    obtain ⟨⟨⟨_, hcp⟩, hB⟩, hA⟩ := h
    have hrun := (aux_run_char f s hne hw).mp (by rw [Bool.and_eq_true]; exact ⟨hcp, hA⟩)
    refine ⟨?_, hrun⟩
    cases s with
    | nil =>
      exfalso
      cases f with
      | nil => exact hne rfl
      | cons a f2 => simp [ciPref] at hcp
    | cons b t =>
      have hwb : isWordC b = true := word_head_of_lows hne hrun
      unfold bdryB at hB
      simp only [List.head?_cons, hwb] at hB
      cases pw with
      | false => rfl
      | true => simp at hB
  · rintro ⟨hpw, hrun⟩
    have hca := (aux_run_char f s hne hw).mpr hrun
    rw [Bool.and_eq_true] at hca
    subst hpw
    simp only [Bool.and_eq_true]
    cases s with
    | nil => exact absurd (by simpa [lows] using hrun.symm) (lows_ne_nil hne)
    | cons b t =>
      have hwb : isWordC b = true := word_head_of_lows hne hrun
      refine ⟨⟨⟨by simpa [List.isEmpty_iff] using hne, hca.1⟩, ?_⟩, hca.2⟩
      unfold bdryB
      simp [hwb]

/-! No-match lemmas for the three scanners. -/

theorem ciPref_false_of_nonword_head {f : List Char} (hne : f ≠ [])
    (hw : ∀ c ∈ f, isWordC c = true) {c : Char} {v : List Char}
    (hc : isWordC c = false) : ciPref f (c :: v) = false := by
  cases f with
  | nil => exact absurd rfl hne
  | cons a f2 =>
    have hwa : isWordC a = true := hw a (by simp)
    unfold ciPref
    have : lowCh a ≠ lowCh c := by
      intro heq
      rw [lowCh_word heq] at hwa
      rw [hwa] at hc
      cases hc
    simp [this]

theorem wwAt_false_word_pw {f : List Char} {c : Char} {v : List Char}
    (hc : isWordC c = true) : wwAt f true (c :: v) = false := by
  unfold wwAt bdryB
  simp [hc]

theorem wwAt_false_nonword {f : List Char} (hne : f ≠ [])
    (hw : ∀ c ∈ f, isWordC c = true) {c : Char} {v : List Char} {pw : Bool}
    (hc : isWordC c = false) : wwAt f pw (c :: v) = false := by
  unfold wwAt
  simp [ciPref_false_of_nonword_head hne hw hc]

theorem p1At_false_word_pw {f : List Char} {c : Char} {v : List Char}
    (hc : isWordC c = true) : p1At f true (c :: v) = false := by
  unfold p1At bdryB
  simp [hc]

theorem p1At_false_nonword {f : List Char} (hne : f ≠ [])
    (hw : ∀ c ∈ f, isWordC c = true) {c : Char} {v : List Char} {pw : Bool}
    (hc : isWordC c = false) : p1At f pw (c :: v) = false := by
  unfold p1At
  simp [ciPref_false_of_nonword_head hne hw hc]

theorem p2At_false_word {f : List Char} {c : Char} {v : List Char}
    (hc : isWordC c = true) : p2At f (c :: v) = false := by
  unfold p2At
  simp [List.takeWhile_cons, word_not_cs hc]

/-! Scanner step equations. -/

theorem subWW_nil (f : List Char) (pw : Bool) : subWW f pw [] = [] := by rw [subWW]

theorem subWW_cons_pos {f : List Char} {pw : Bool} {c : Char} {rest : List Char}
    (h : wwAt f pw (c :: rest) = true) :
    subWW f pw (c :: rest) =
      ' ' :: subWW f (isWordC ((c :: rest).getD (f.length - 1) ' ')) (rest.drop (f.length - 1)) := by
  rw [subWW, if_pos h]

theorem subWW_cons_neg {f : List Char} {pw : Bool} {c : Char} {rest : List Char}
    (h : wwAt f pw (c :: rest) = false) :
    subWW f pw (c :: rest) = c :: subWW f (isWordC c) rest := by
  rw [subWW, if_neg (by simp [h])]

theorem sub1_nil (f : List Char) (pw : Bool) : sub1 f pw [] = [] := by rw [sub1]

theorem sub1_cons_pos {f : List Char} {pw : Bool} {c : Char} {rest : List Char}
    (h : p1At f pw (c :: rest) = true) :
    sub1 f pw (c :: rest) =
      ' ' :: sub1 f (isWordC ((((c :: rest).drop f.length).takeWhile isCS).getLastD c))
        (rest.drop (f.length + (((c :: rest).drop f.length).takeWhile isCS).length - 1)) := by
  rw [sub1, if_pos h]

theorem sub1_cons_neg {f : List Char} {pw : Bool} {c : Char} {rest : List Char}
    (h : p1At f pw (c :: rest) = false) :
    sub1 f pw (c :: rest) = c :: sub1 f (isWordC c) rest := by
  rw [sub1, if_neg (by simp [h])]

theorem sub2_nil (f : List Char) (pw : Bool) : sub2 f pw [] = [] := by rw [sub2]

theorem sub2_cons_pos {f : List Char} {pw : Bool} {c : Char} {rest : List Char}
    (h : p2At f (c :: rest) = true) :
    sub2 f pw (c :: rest) =
      ' ' :: sub2 f
        (isWordC ((((c :: rest).drop ((c :: rest).takeWhile isCS).length)).getD (f.length - 1) ' '))
        (rest.drop (((c :: rest).takeWhile isCS).length + f.length - 1)) := by
  rw [sub2, if_pos h]

theorem sub2_cons_neg {f : List Char} {pw : Bool} {c : Char} {rest : List Char}
    (h : p2At f (c :: rest) = false) :
    sub2 f pw (c :: rest) = c :: sub2 f (isWordC c) rest := by
  rw [sub2, if_neg (by simp [h])]

/-- The second pattern's scanner never reads its previous-character state. -/
theorem sub2_pw (f : List Char) (pw qw : Bool) (u : List Char) :
    sub2 f pw u = sub2 f qw u := by
  cases u with
  | nil => rw [sub2_nil, sub2_nil]
  | cons c rest =>
    by_cases h : p2At f (c :: rest) = true
    · rw [sub2_cons_pos h, sub2_cons_pos h]
    · have h2 : p2At f (c :: rest) = false := by revert h; cases p2At f (c :: rest) <;> simp
      rw [sub2_cons_neg h2, sub2_cons_neg h2]

/-! wordRuns toolkit. -/

theorem wordRuns_nil : wordRuns [] = [] := by rw [wordRuns]

theorem wordRuns_cons_word {c : Char} {rest : List Char} (hc : isWordC c = true) :
    wordRuns (c :: rest) =
      (c :: rest.takeWhile isWordC) :: wordRuns (rest.dropWhile isWordC) := by
  rw [wordRuns, if_pos hc]

theorem wordRuns_cons_nonword {c : Char} {rest : List Char} (hc : isWordC c = false) :
    wordRuns (c :: rest) = wordRuns rest := by
  rw [wordRuns, if_neg (by simp [hc])]

theorem wordRuns_nonword_append : ∀ (r X : List Char), (∀ x ∈ r, isWordC x = false) →
    wordRuns (r ++ X) = wordRuns X := by
  intro r
  induction r with
  | nil => intro X _; rfl
  | cons d r2 ih =>
    intro X h
    rw [List.cons_append, wordRuns_cons_nonword (h d (by simp))]
    exact ih X (fun x hx => h x (by simp [hx]))

theorem wordRuns_all_nonword {r : List Char} (h : ∀ x ∈ r, isWordC x = false) :
    wordRuns r = [] := by
  have h2 := wordRuns_nonword_append r [] h
  rw [List.append_nil] at h2
  rw [h2, wordRuns_nil]

theorem takeWhile_append_stop {p : Char → Bool} :
    ∀ (Y r : List Char), (∀ d, r.head? = some d → p d = false) →
      (Y ++ r).takeWhile p = Y.takeWhile p ∧ (Y ++ r).dropWhile p = Y.dropWhile p ++ r := by
  intro Y
  induction Y with
  | nil =>
    intro r h
    cases r with
    | nil => simp
    | cons d u =>
      have := h d rfl
      simp [List.takeWhile_cons, List.dropWhile_cons, this]
  | cons c Y2 ih =>
    intro r h
    by_cases hc : p c = true
    · have := ih r h
      simp [List.takeWhile_cons, List.dropWhile_cons, hc, this.1, this.2]
    · have hc2 : p c = false := by revert hc; cases p c <;> simp
      simp [List.takeWhile_cons, List.dropWhile_cons, hc2]

theorem dropWhile_eq_drop_takeWhile_length {p : Char → Bool} :
    ∀ (u : List Char), u.dropWhile p = u.drop (u.takeWhile p).length := by
  intro u
  induction u with
  | nil => rfl
  | cons c v ih =>
    by_cases hc : p c = true
    · simp [List.takeWhile_cons, List.dropWhile_cons, hc, ih]
    · have hc2 : p c = false := by revert hc; cases p c <;> simp
      simp [List.takeWhile_cons, List.dropWhile_cons, hc2]

/-! Pass-through of leading word runs: with a word character before the scan
position, no match can start inside the current word run, so the scanners copy
it verbatim. -/

theorem subWW_word_pass {f : List Char} :
    ∀ u : List Char, subWW f true u = u.takeWhile isWordC ++ subWW f true (u.dropWhile isWordC) := by
  intro u
  induction u with
  | nil => simp [subWW_nil]
  | cons c v ih =>
    by_cases hc : isWordC c = true
    · rw [subWW_cons_neg (wwAt_false_word_pw hc), hc, List.takeWhile_cons, List.dropWhile_cons]
      simp [hc, ih]
    · have hc2 : isWordC c = false := by revert hc; cases isWordC c <;> simp
      simp [List.takeWhile_cons, List.dropWhile_cons, hc2]

theorem sub1_word_pass {f : List Char} :
    ∀ u : List Char, sub1 f true u = u.takeWhile isWordC ++ sub1 f true (u.dropWhile isWordC) := by
  intro u
  induction u with
  | nil => simp [sub1_nil]
  | cons c v ih =>
    by_cases hc : isWordC c = true
    · rw [sub1_cons_neg (p1At_false_word_pw hc), hc, List.takeWhile_cons, List.dropWhile_cons]
      simp [hc, ih]
    · have hc2 : isWordC c = false := by revert hc; cases isWordC c <;> simp
      simp [List.takeWhile_cons, List.dropWhile_cons, hc2]

theorem sub2_word_pass {f : List Char} :
    ∀ (u : List Char) (pw : Bool),
      sub2 f pw u = u.takeWhile isWordC ++ sub2 f true (u.dropWhile isWordC) := by
  intro u
  induction u with
  | nil => intro pw; simp [sub2_nil]
  | cons c v ih =>
    intro pw
    by_cases hc : isWordC c = true
    · rw [sub2_cons_neg (p2At_false_word hc), hc, List.takeWhile_cons, List.dropWhile_cons]
      simp only [hc, if_true, List.cons_append, List.cons.injEq, true_and]
      exact ih true
    · have hc2 : isWordC c = false := by revert hc; cases isWordC c <;> simp
      rw [List.takeWhile_cons, List.dropWhile_cons]
      simp only [hc2, Bool.false_eq_true, if_false, List.nil_append]
      exact sub2_pw f pw true (c :: v)

/-! Span facts at a match. -/

theorem wwAt_parts {f : List Char} {pw : Bool} {s : List Char} (h : wwAt f pw s = true) :
    ciPref f s = true ∧ bdryB pw s = true ∧ bdryA f s = true := by
  unfold wwAt at h
  simp only [Bool.and_eq_true] at h
  exact ⟨h.1.1.2, h.1.2, h.2⟩

theorem p1At_parts {f : List Char} {pw : Bool} {s : List Char} (h : p1At f pw s = true) :
    ciPref f s = true ∧ bdryB pw s = true ∧ bdryA f s = true ∧ lookCS f s = true := by
  unfold p1At at h
  simp only [Bool.and_eq_true] at h
  exact ⟨h.1.1.1.2, h.1.1.2, h.1.2, h.2⟩

theorem p2At_parts {f : List Char} {s : List Char} (h : p2At f s = true) :
    (s.takeWhile isCS).isEmpty = false ∧
    ciPref f (s.drop (s.takeWhile isCS).length) = true ∧
    bdryA f (s.drop (s.takeWhile isCS).length) = true ∧
    lookCPS f (s.drop (s.takeWhile isCS).length) = true := by
  unfold p2At at h
  simp only [Bool.and_eq_true] at h
  refine ⟨?_, h.1.1.1.2, h.1.2, h.2⟩
  have := h.1.1.1.1.1
  revert this
  cases (s.takeWhile isCS).isEmpty <;> simp

/-- At a whole-word match, the leading word run is exactly the first
`f.length` characters. -/
theorem match_span {f s : List Char} (hne : f ≠ []) (hw : ∀ c ∈ f, isWordC c = true)
    (hcp : ciPref f s = true) (hA : bdryA f s = true) :
    s.takeWhile isWordC = s.take f.length ∧ s.dropWhile isWordC = s.drop f.length := by
  have hrun := (aux_run_char f s hne hw).mp (by rw [Bool.and_eq_true]; exact ⟨hcp, hA⟩)
  have hlen : (s.takeWhile isWordC).length = f.length := by
    have := congrArg List.length hrun
    simpa [lows_length] using this
  have hsplit := List.takeWhile_append_dropWhile (p := isWordC) (l := s)
  have hgen : ∀ (A B u : List Char), A ++ B = u → A = u.take A.length ∧ B = u.drop A.length := by
    intro A B u h
    subst h
    rw [List.take_left, List.drop_left]
    exact ⟨rfl, rfl⟩
  obtain ⟨h1, h2⟩ := hgen _ _ _ hsplit
  rw [hlen] at h1 h2
  exact ⟨h1, h2⟩

/-- The character after a whole-word match (if any) is not a word character. -/
theorem after_match_nonword {f s : List Char} (hcp : ciPref f s = true) (hne : f ≠ [])
    (hw : ∀ c ∈ f, isWordC c = true) (hA : bdryA f s = true) :
    ∀ d, (s.drop f.length).head? = some d → isWordC d = false := by
  intro d hd
  have he : isWordC (s.getD (f.length - 1) ' ') = true := by
    apply ciPref_word hcp hw
    cases f with
    | nil => exact absurd rfl hne
    | cons a f2 => simp
  unfold bdryA at hA
  rw [hd] at hA
  have hA2 : (isWordC (s.getD (f.length - 1) ' ') != isWordC d) = true := hA
  rw [he] at hA2
  cases hd2 : isWordC d with
  | false => rfl
  | true => rw [hd2] at hA2; simp at hA2

/-- A scan finds a whole-word, case-insensitive occurrence of `f` exactly when
some visible maximal word run casefolds to `f`. -/
theorem hasWWFrom_iff_runs {f : List Char} (hne : f ≠ []) (hw : ∀ c ∈ f, isWordC c = true) :
    ∀ (s : List Char) (pw : Bool),
      hasWWFrom f pw s = true ↔ ∃ w ∈ wordRunsFrom pw s, lows w = lows f := by
  intro s
  induction s with
  | nil =>
    intro pw
    constructor
    · intro h; simp [hasWWFrom] at h
    · rintro ⟨w, hwmem, _⟩
      exfalso
      unfold wordRunsFrom at hwmem
      cases pw <;> simp [wordRuns_nil] at hwmem
  | cons c rest ih =>
    intro pw
    have hstep : hasWWFrom f pw (c :: rest) =
        (wwAt f pw (c :: rest) || hasWWFrom f (isWordC c) rest) := rfl
    rw [hstep, Bool.or_eq_true, wwAt_iff hne hw, ih (isWordC c)]
    have h0 : lows f ≠ [] := lows_ne_nil hne
    cases hc : isWordC c with
    | true =>
      cases pw with
      | true =>
        unfold wordRunsFrom
        simp [List.dropWhile_cons, hc]
      | false =>
        unfold wordRunsFrom
        simp only [if_pos rfl, if_neg (by simp : ¬(false = true)),
          wordRuns_cons_word hc, List.takeWhile_cons, hc, if_true, List.mem_cons]
        constructor
        · rintro (⟨_, hr⟩ | ⟨w, hwmem, hweq⟩)
          · exact ⟨c :: rest.takeWhile isWordC, Or.inl rfl, hr⟩
          · exact ⟨w, Or.inr hwmem, hweq⟩
        · rintro ⟨w, hwmem | hwmem, hweq⟩
          · subst hwmem; exact Or.inl ⟨trivial, hweq⟩
          · exact Or.inr ⟨w, hwmem, hweq⟩
    | false =>
      have hfirst : lows ((c :: rest).takeWhile isWordC) ≠ lows f := by
        intro hr
        rw [List.takeWhile_cons, hc] at hr
        simp only [Bool.false_eq_true, if_false] at hr
        exact h0 (by simpa [lows] using hr.symm)
      unfold wordRunsFrom
      cases pw with
      | true =>
        simp only [if_pos rfl, List.dropWhile_cons, hc, Bool.false_eq_true, if_false,
          wordRuns_cons_nonword hc]
        simp [hfirst]
      | false =>
        simp only [if_neg (by simp : ¬(false = true)), wordRuns_cons_nonword hc]
        simp [hfirst]

theorem dropWhile_head_false (p : Char → Bool) :
    ∀ (u : List Char) (d : Char), (u.dropWhile p).head? = some d → p d = false := by
  intro u
  induction u with
  | nil => intro d h; simp at h
  | cons c v ih =>
    intro d h
    by_cases hc : p c = true
    · rw [List.dropWhile_cons, if_pos hc] at h
      exact ih d h
    · have hc2 : p c = false := by revert hc; cases p c <;> simp
      rw [List.dropWhile_cons, hc2] at h
      simp only [Bool.false_eq_true, if_false, List.head?_cons, Option.some.injEq] at h
      rw [← h]; exact hc2

/-- After the whole-word substitution, no visible word run of the output
casefolds to the pattern, and every visible word run of the output is a
visible word run of the input. -/
theorem subWW_runs {f : List Char} (hne : f ≠ []) (hw : ∀ c ∈ f, isWordC c = true) :
    ∀ (n : Nat) (s : List Char), s.length ≤ n → ∀ (pw : Bool) (w : List Char),
      w ∈ wordRunsFrom pw (subWW f pw s) →
      w ∈ wordRunsFrom pw s ∧ lows w ≠ lows f := by
  intro n
  induction n with
  | zero =>
    intro s hlen pw w hwmem
    have hs : s = [] := List.length_eq_zero.mp (Nat.le_zero.mp hlen)
    subst hs
    rw [subWW_nil] at hwmem
    unfold wordRunsFrom at hwmem
    cases pw <;> simp [wordRuns_nil] at hwmem
  | succ n ihn =>
    intro s hlen pw w hwmem
    cases s with
    | nil =>
      rw [subWW_nil] at hwmem
      unfold wordRunsFrom at hwmem
      cases pw <;> simp [wordRuns_nil] at hwmem
    | cons c rest =>
      have hflen : 1 ≤ f.length := by
        cases f with
        | nil => exact absurd rfl hne
        | cons a f2 => simp
      by_cases hM : wwAt f pw (c :: rest) = true
      · obtain ⟨hpw, hrun⟩ := (wwAt_iff hne hw pw (c :: rest)).mp hM
        subst hpw
        obtain ⟨hcp, _, hA⟩ := wwAt_parts hM
        have hspan := match_span hne hw hcp hA
        rw [subWW_cons_pos hM] at hwmem
        have hpw2 : isWordC ((c :: rest).getD (f.length - 1) ' ') = true :=
          ciPref_word hcp hw (by omega : f.length - 1 < f.length)
        rw [hpw2] at hwmem
        have hs2 : rest.drop (f.length - 1) = (c :: rest).drop f.length := by
          have hh : f.length = (f.length - 1) + 1 := by omega
          rw [hh]
          simp [List.drop_succ_cons]
        rw [hs2] at hwmem
        have hcw : isWordC c = true := by
          have := ciPref_word hcp hw (by omega : 0 < f.length)
          simpa [List.getD] using this
        unfold wordRunsFrom at hwmem ⊢
        simp only [Bool.false_eq_true, if_false] at hwmem ⊢
        rw [wordRuns_cons_nonword space_isWordC] at hwmem
        rw [wordRuns_cons_word hcw]
        have hdw : rest.dropWhile isWordC = (c :: rest).drop f.length := by
          have := hspan.2
          rw [List.dropWhile_cons, if_pos hcw] at this
          exact this
        cases hs2c : (c :: rest).drop f.length with
        | nil =>
          rw [hs2c, subWW_nil, wordRuns_nil] at hwmem
          simp at hwmem
        | cons d u =>
          have hd : isWordC d = false :=
            after_match_nonword hcp hne hw hA d (by rw [hs2c]; rfl)
          rw [hs2c] at hwmem
          rw [subWW_cons_neg (wwAt_false_nonword hne hw hd), hd] at hwmem
          rw [wordRuns_cons_nonword hd] at hwmem
          have hlen2 : u.length ≤ n := by
            have h1 : ((c :: rest).drop f.length).length = (c :: rest).length - f.length := by
              simp [List.length_drop]
            rw [hs2c] at h1
            simp only [List.length_cons] at h1 hlen
            omega
          have hres := ihn u hlen2 false w (by
            unfold wordRunsFrom
            simp only [Bool.false_eq_true, if_false]
            exact hwmem)
          unfold wordRunsFrom at hres
          simp only [Bool.false_eq_true, if_false] at hres
          refine ⟨?_, hres.2⟩
          apply List.mem_cons_of_mem
          rw [hdw, hs2c, wordRuns_cons_nonword hd]
          exact hres.1
      · have hM2 : wwAt f pw (c :: rest) = false := by
          revert hM; cases wwAt f pw (c :: rest) <;> simp
        rw [subWW_cons_neg hM2] at hwmem
        cases hc : isWordC c with
        | false =>
          rw [hc] at hwmem
          have hruns_out : w ∈ wordRuns (subWW f false rest) := by
            unfold wordRunsFrom at hwmem
            cases pw with
            | true =>
              rw [if_pos rfl, List.dropWhile_cons, if_neg (by simp [hc])] at hwmem
              rwa [wordRuns_cons_nonword hc] at hwmem
            | false =>
              rw [if_neg (by simp)] at hwmem
              rwa [wordRuns_cons_nonword hc] at hwmem
          have hres := ihn rest (by simpa using Nat.le_of_succ_le_succ (by simpa using hlen))
            false w (by
              unfold wordRunsFrom
              simp only [Bool.false_eq_true, if_false]
              exact hruns_out)
          unfold wordRunsFrom at hres
          simp only [Bool.false_eq_true, if_false] at hres
          refine ⟨?_, hres.2⟩
          unfold wordRunsFrom
          cases pw with
          | true =>
            rw [if_pos rfl, List.dropWhile_cons, if_neg (by simp [hc]),
              wordRuns_cons_nonword hc]
            exact hres.1
          | false =>
            rw [if_neg (by simp), wordRuns_cons_nonword hc]
            exact hres.1
        | true =>
          rw [hc] at hwmem
          have hpass := subWW_word_pass (f := f) rest
          have hT2head : ∀ d, (rest.dropWhile isWordC).head? = some d → isWordC d = false :=
            dropWhile_head_false isWordC rest
          -- Analyze the tail scanner output.
          have htail : ∀ w2, w2 ∈ wordRuns ((subWW f true rest).dropWhile isWordC) →
              w2 ∈ wordRuns (rest.dropWhile isWordC) ∧ lows w2 ≠ lows f := by
            intro w2 hw2
            have hR : ∀ x ∈ rest.takeWhile isWordC, isWordC x = true := by
              intro x hx; exact List.mem_takeWhile_imp hx
            cases hV : rest.dropWhile isWordC with
            | nil =>
              rw [hpass, hV, subWW_nil, List.append_nil,
                List.dropWhile_eq_nil_iff.mpr hR, wordRuns_nil] at hw2
              simp at hw2
            | cons d u =>
              have hd : isWordC d = false := hT2head d (by rw [hV]; rfl)
              have hT2 : subWW f true (rest.dropWhile isWordC) =
                  d :: subWW f false u := by
                rw [hV, subWW_cons_neg (wwAt_false_nonword hne hw hd), hd]
              have hstop : ((rest.takeWhile isWordC) ++ subWW f true (rest.dropWhile isWordC)).dropWhile
                  isWordC = (rest.takeWhile isWordC).dropWhile isWordC ++
                    subWW f true (rest.dropWhile isWordC) := by
                apply (takeWhile_append_stop _ _ _).2
                intro e he
                rw [hT2] at he
                simp only [List.head?_cons, Option.some.injEq] at he
                rw [← he]; exact hd
              rw [hpass, hstop, List.dropWhile_eq_nil_iff.mpr hR, List.nil_append, hT2,
                wordRuns_cons_nonword hd] at hw2
              have hlenu : u.length ≤ n := by
                have h1 := (List.dropWhile_sublist (l := rest) isWordC).length_le
                rw [hV] at h1
                simp only [List.length_cons] at h1 hlen
                omega
              have hres := ihn u hlenu false w2 (by
                unfold wordRunsFrom
                simp only [Bool.false_eq_true, if_false]
                exact hw2)
              unfold wordRunsFrom at hres
              simp only [Bool.false_eq_true, if_false] at hres
              refine ⟨?_, hres.2⟩
              rw [wordRuns_cons_nonword hd]
              exact hres.1
          cases pw with
          | true =>
            unfold wordRunsFrom at hwmem ⊢
            rw [if_pos rfl] at hwmem ⊢
            rw [List.dropWhile_cons, if_pos hc] at hwmem ⊢
            have := htail w hwmem
            exact ⟨this.1, this.2⟩
          | false =>
            unfold wordRunsFrom at hwmem ⊢
            rw [if_neg (by simp)] at hwmem ⊢
            rw [wordRuns_cons_word hc] at hwmem ⊢
            -- leading run of output = leading run of input
            have hlead : (subWW f true rest).takeWhile isWordC = rest.takeWhile isWordC := by
              have hR : ∀ x ∈ rest.takeWhile isWordC, isWordC x = true := by
                intro x hx; exact List.mem_takeWhile_imp hx
              cases hV : rest.dropWhile isWordC with
              | nil =>
                rw [hpass, hV, subWW_nil, List.append_nil]
                exact List.takeWhile_eq_self_iff.mpr hR
              | cons d u =>
                have hd : isWordC d = false := hT2head d (by rw [hV]; rfl)
                have hT2 : subWW f true (rest.dropWhile isWordC) = d :: subWW f false u := by
                  rw [hV, subWW_cons_neg (wwAt_false_nonword hne hw hd), hd]
                rw [hpass]
                rw [(takeWhile_append_stop _ _ ?_).1]
                · exact List.takeWhile_eq_self_iff.mpr hR
                · intro e he
                  rw [hT2] at he
                  simp only [List.head?_cons, Option.some.injEq] at he
                  rw [← he]; exact hd
            rcases List.mem_cons.mp hwmem with hweq | hwtail
            · subst hweq
              rw [hlead]
              refine ⟨List.mem_cons_self _ _, ?_⟩
              intro hcontra
              apply hM
              rw [wwAt_iff hne hw]
              refine ⟨rfl, ?_⟩
              rw [List.takeWhile_cons, if_pos hc]
              exact hcontra
            · have := htail w hwtail
              exact ⟨List.mem_cons_of_mem _ this.1, this.2⟩

theorem getLastD_mem_of_ne_nil : ∀ (u : List Char) (x : Char), u ≠ [] → u.getLastD x ∈ u := by
  intro u
  induction u with
  | nil => intro x h; exact absurd rfl h
  | cons c v ih =>
    intro x _
    cases v with
    | nil => simp [List.getLastD]
    | cons d u2 =>
      rw [List.getLastD_cons]
      exact List.mem_cons_of_mem _ (ih c (by simp))

theorem bdryB_word_head {pw : Bool} {b : Char} {t : List Char}
    (h : bdryB pw (b :: t) = true) (hb : isWordC b = true) : pw = false := by
  unfold bdryB at h
  have h2 : (pw != isWordC b) = true := h
  rw [hb] at h2
  cases pw with
  | false => rfl
  | true => simp at h2

/-- Every visible word run of the output of the first boundary-context
substitution is a visible word run of the input. -/
theorem sub1_runs_sub {f : List Char} (hne : f ≠ []) (hw : ∀ c ∈ f, isWordC c = true) :
    ∀ (n : Nat) (s : List Char), s.length ≤ n → ∀ (pw : Bool) (w : List Char),
      w ∈ wordRunsFrom pw (sub1 f pw s) → w ∈ wordRunsFrom pw s := by
  intro n
  induction n with
  | zero =>
    intro s hlen pw w hwmem
    have hs : s = [] := List.length_eq_zero.mp (Nat.le_zero.mp hlen)
    subst hs
    rw [sub1_nil] at hwmem
    unfold wordRunsFrom at hwmem
    cases pw <;> simp [wordRuns_nil] at hwmem
  | succ n ihn =>
    intro s hlen pw w hwmem
    cases s with
    | nil =>
      rw [sub1_nil] at hwmem
      unfold wordRunsFrom at hwmem
      cases pw <;> simp [wordRuns_nil] at hwmem
    | cons c rest =>
      have hflen : 1 ≤ f.length := by
        cases f with
        | nil => exact absurd rfl hne
        | cons a f2 => simp
      by_cases hM : p1At f pw (c :: rest) = true
      · obtain ⟨hcp, hB, hA, hCS⟩ := p1At_parts hM
        have hcw : isWordC c = true := by
          have := ciPref_word hcp hw (by omega : 0 < f.length)
          simpa [List.getD] using this
        have hpw := bdryB_word_head hB hcw
        subst hpw
        have hspan := match_span hne hw hcp hA
        rw [sub1_cons_pos hM] at hwmem
        -- the [,\s]+ run
        have hrun_ne : ((c :: rest).drop f.length).takeWhile isCS ≠ [] := by
          unfold lookCS at hCS
          cases hdrop : (c :: rest).drop f.length with
          | nil => rw [hdrop] at hCS; simp at hCS
          | cons d2 u2 =>
            rw [hdrop] at hCS
            have hCS2 : isCS d2 = true := hCS
            rw [List.takeWhile_cons, if_pos hCS2]
            simp
        have hrun_cs : ∀ x ∈ ((c :: rest).drop f.length).takeWhile isCS, isCS x = true := by
          intro x hx; exact List.mem_takeWhile_imp hx
        have hpw2 : isWordC ((((c :: rest).drop f.length).takeWhile isCS).getLastD c) = false := by
          apply cs_not_word
          exact hrun_cs _ (getLastD_mem_of_ne_nil _ c hrun_ne)
        rw [hpw2] at hwmem
        have hs2 : rest.drop (f.length + (((c :: rest).drop f.length).takeWhile isCS).length - 1) =
            ((c :: rest).drop f.length).dropWhile isCS := by
          have hlen1 : 1 ≤ f.length + (((c :: rest).drop f.length).takeWhile isCS).length := by
            omega
          have hh : f.length + (((c :: rest).drop f.length).takeWhile isCS).length =
              (f.length + (((c :: rest).drop f.length).takeWhile isCS).length - 1) + 1 := by
            omega
          have hd1 : rest.drop (f.length + (((c :: rest).drop f.length).takeWhile isCS).length - 1)
              = (c :: rest).drop (f.length + (((c :: rest).drop f.length).takeWhile isCS).length) := by
            rw [hh]
            simp [List.drop_succ_cons]
          rw [hd1, ← List.drop_drop, dropWhile_eq_drop_takeWhile_length]
        rw [hs2] at hwmem
        unfold wordRunsFrom at hwmem ⊢
        simp only [Bool.false_eq_true, if_false] at hwmem ⊢
        rw [wordRuns_cons_nonword space_isWordC] at hwmem
        have hlen2 : (((c :: rest).drop f.length).dropWhile isCS).length ≤ n := by
          have h1 := (List.dropWhile_sublist (l := (c :: rest).drop f.length) isCS).length_le
          have h2 : ((c :: rest).drop f.length).length = (c :: rest).length - f.length := by
            simp [List.length_drop]
          simp only [List.length_cons] at h2 hlen
          omega
        have hres := ihn _ hlen2 false w (by
          unfold wordRunsFrom
          simp only [Bool.false_eq_true, if_false]
          exact hwmem)
        unfold wordRunsFrom at hres
        simp only [Bool.false_eq_true, if_false] at hres
        rw [wordRuns_cons_word hcw]
        apply List.mem_cons_of_mem
        have hdw : rest.dropWhile isWordC = (c :: rest).drop f.length := by
          have := hspan.2
          rw [List.dropWhile_cons, if_pos hcw] at this
          exact this
        rw [hdw]
        have hsplitCS := List.takeWhile_append_dropWhile (p := isCS)
          (l := (c :: rest).drop f.length)
        have hruns_eq : wordRuns ((c :: rest).drop f.length) =
            wordRuns (((c :: rest).drop f.length).dropWhile isCS) := by
          conv_lhs => rw [← hsplitCS]
          exact wordRuns_nonword_append _ _ (fun x hx => cs_not_word (hrun_cs x hx))
        rw [hruns_eq]
        exact hres
      · have hM2 : p1At f pw (c :: rest) = false := by
          revert hM; cases p1At f pw (c :: rest) <;> simp
        rw [sub1_cons_neg hM2] at hwmem
        cases hc : isWordC c with
        | false =>
          rw [hc] at hwmem
          have hruns_out : w ∈ wordRuns (sub1 f false rest) := by
            unfold wordRunsFrom at hwmem
            cases pw with
            | true =>
              rw [if_pos rfl, List.dropWhile_cons, if_neg (by simp [hc])] at hwmem
              rwa [wordRuns_cons_nonword hc] at hwmem
            | false =>
              rw [if_neg (by simp)] at hwmem
              rwa [wordRuns_cons_nonword hc] at hwmem
          have hres := ihn rest (by simp only [List.length_cons] at hlen; omega)
            false w (by
              unfold wordRunsFrom
              simp only [Bool.false_eq_true, if_false]
              exact hruns_out)
          unfold wordRunsFrom at hres
          simp only [Bool.false_eq_true, if_false] at hres
          unfold wordRunsFrom
          cases pw with
          | true =>
            rw [if_pos rfl, List.dropWhile_cons, if_neg (by simp [hc]),
              wordRuns_cons_nonword hc]
            exact hres
          | false =>
            rw [if_neg (by simp), wordRuns_cons_nonword hc]
            exact hres
        | true =>
          rw [hc] at hwmem
          have hpass := sub1_word_pass (f := f) rest
          have hR : ∀ x ∈ rest.takeWhile isWordC, isWordC x = true := by
            intro x hx; exact List.mem_takeWhile_imp hx
          have hT2head : ∀ d, (rest.dropWhile isWordC).head? = some d → isWordC d = false :=
            dropWhile_head_false isWordC rest
          have htail : ∀ w2, w2 ∈ wordRuns ((sub1 f true rest).dropWhile isWordC) →
              w2 ∈ wordRuns (rest.dropWhile isWordC) := by
            intro w2 hw2
            cases hV : rest.dropWhile isWordC with
            | nil =>
              rw [hpass, hV, sub1_nil, List.append_nil,
                List.dropWhile_eq_nil_iff.mpr hR, wordRuns_nil] at hw2
              simp at hw2
            | cons d u =>
              have hd : isWordC d = false := hT2head d (by rw [hV]; rfl)
              have hT2 : sub1 f true (rest.dropWhile isWordC) = d :: sub1 f false u := by
                rw [hV, sub1_cons_neg (p1At_false_nonword hne hw hd), hd]
              have hstop : ((rest.takeWhile isWordC) ++ sub1 f true (rest.dropWhile isWordC)).dropWhile
                  isWordC = (rest.takeWhile isWordC).dropWhile isWordC ++
                    sub1 f true (rest.dropWhile isWordC) := by
                apply (takeWhile_append_stop _ _ _).2
                intro e he
                rw [hT2] at he
                simp only [List.head?_cons, Option.some.injEq] at he
                rw [← he]; exact hd
              rw [hpass, hstop, List.dropWhile_eq_nil_iff.mpr hR, List.nil_append, hT2,
                wordRuns_cons_nonword hd] at hw2
              have hlenu : u.length ≤ n := by
                have h1 := (List.dropWhile_sublist (l := rest) isWordC).length_le
                rw [hV] at h1
                simp only [List.length_cons] at h1 hlen
                omega
              have hres := ihn u hlenu false w2 (by
                unfold wordRunsFrom
                simp only [Bool.false_eq_true, if_false]
                exact hw2)
              unfold wordRunsFrom at hres
              simp only [Bool.false_eq_true, if_false] at hres
              rw [wordRuns_cons_nonword hd]
              exact hres
          cases pw with
          | true =>
            unfold wordRunsFrom at hwmem ⊢
            rw [if_pos rfl] at hwmem ⊢
            rw [List.dropWhile_cons, if_pos hc] at hwmem ⊢
            exact htail w hwmem
          | false =>
            unfold wordRunsFrom at hwmem ⊢
            rw [if_neg (by simp)] at hwmem ⊢
            rw [wordRuns_cons_word hc] at hwmem ⊢
            have hlead : (sub1 f true rest).takeWhile isWordC = rest.takeWhile isWordC := by
              cases hV : rest.dropWhile isWordC with
              | nil =>
                rw [hpass, hV, sub1_nil, List.append_nil]
                exact List.takeWhile_eq_self_iff.mpr hR
              | cons d u =>
                have hd : isWordC d = false := hT2head d (by rw [hV]; rfl)
                have hT2 : sub1 f true (rest.dropWhile isWordC) = d :: sub1 f false u := by
                  rw [hV, sub1_cons_neg (p1At_false_nonword hne hw hd), hd]
                rw [hpass]
                rw [(takeWhile_append_stop _ _ ?_).1]
                · exact List.takeWhile_eq_self_iff.mpr hR
                · intro e he
                  rw [hT2] at he
                  simp only [List.head?_cons, Option.some.injEq] at he
                  rw [← he]; exact hd
            rcases List.mem_cons.mp hwmem with hweq | hwtail
            · subst hweq
              rw [hlead]
              exact List.mem_cons_self _ _
            · exact List.mem_cons_of_mem _ (htail w hwtail)

/-- Every visible word run of the output of the second boundary-context
substitution is a visible word run of the input. -/
theorem sub2_runs_sub {f : List Char} (hne : f ≠ []) (hw : ∀ c ∈ f, isWordC c = true) :
    ∀ (n : Nat) (s : List Char), s.length ≤ n → ∀ (pw : Bool) (w : List Char),
      w ∈ wordRunsFrom pw (sub2 f pw s) → w ∈ wordRunsFrom pw s := by
  intro n
  induction n with
  | zero =>
    intro s hlen pw w hwmem
    have hs : s = [] := List.length_eq_zero.mp (Nat.le_zero.mp hlen)
    subst hs
    rw [sub2_nil] at hwmem
    unfold wordRunsFrom at hwmem
    cases pw <;> simp [wordRuns_nil] at hwmem
  | succ n ihn =>
    intro s hlen pw w hwmem
    cases s with
    | nil =>
      rw [sub2_nil] at hwmem
      unfold wordRunsFrom at hwmem
      cases pw <;> simp [wordRuns_nil] at hwmem
    | cons c rest =>
      have hflen : 1 ≤ f.length := by
        cases f with
        | nil => exact absurd rfl hne
        | cons a f2 => simp
      by_cases hM : p2At f (c :: rest) = true
      · obtain ⟨hrunE, hcp, hA, hlook⟩ := p2At_parts hM
        have hrun_cs : ∀ x ∈ (c :: rest).takeWhile isCS, isCS x = true := by
          intro x hx; exact List.mem_takeWhile_imp hx
        have hcCS : isCS c = true := by
          by_contra hcc
          have hcc2 : isCS c = false := by revert hcc; cases isCS c <;> simp
          rw [List.takeWhile_cons, hcc2] at hrunE
          simp at hrunE
        have hcnw : isWordC c = false := cs_not_word hcCS
        -- the remainder after the [,\s]+ run
        have hrem : (c :: rest).drop ((c :: rest).takeWhile isCS).length =
            (c :: rest).dropWhile isCS := (dropWhile_eq_drop_takeWhile_length (c :: rest)).symm
        rw [sub2_cons_pos hM] at hwmem
        have hpw2 : isWordC (((c :: rest).drop ((c :: rest).takeWhile isCS).length).getD
            (f.length - 1) ' ') = true :=
          ciPref_word hcp hw (by omega : f.length - 1 < f.length)
        rw [hpw2] at hwmem
        -- the continuation after the match
        have hs2 : rest.drop (((c :: rest).takeWhile isCS).length + f.length - 1) =
            ((c :: rest).drop ((c :: rest).takeWhile isCS).length).drop f.length := by
          have hrunlen : 1 ≤ ((c :: rest).takeWhile isCS).length := by
            cases hc2 : (c :: rest).takeWhile isCS with
            | nil => rw [hc2] at hrunE; simp at hrunE
            | cons x xs => simp
          have hh : ((c :: rest).takeWhile isCS).length + f.length =
              (((c :: rest).takeWhile isCS).length + f.length - 1) + 1 := by omega
          have hd1 : rest.drop (((c :: rest).takeWhile isCS).length + f.length - 1) =
              (c :: rest).drop (((c :: rest).takeWhile isCS).length + f.length) := by
            rw [hh]
            simp [List.drop_succ_cons]
          rw [hd1, ← List.drop_drop]
        rw [hs2] at hwmem
        -- the lookahead character: the continuation starts with a non-word character
        have hlook2 : ∀ d,
            (((c :: rest).drop ((c :: rest).takeWhile isCS).length).drop f.length).head? = some d →
            isWordC d = false := by
          intro d hd
          unfold lookCPS at hlook
          rw [hd] at hlook
          exact cps_not_word hlook
        cases hs2c : ((c :: rest).drop ((c :: rest).takeWhile isCS).length).drop f.length with
        | nil =>
          exfalso
          unfold lookCPS at hlook
          rw [hs2c] at hlook
          simp at hlook
        | cons d u =>
          have hd : isWordC d = false := hlook2 d (by rw [hs2c]; rfl)
          rw [hs2c] at hwmem
          -- the scanner output after the blank has a non-word head
          have hT2head : ∀ e, (sub2 f true (d :: u)).head? = some e → isWordC e = false := by
            intro e he
            by_cases hp : p2At f (d :: u) = true
            · rw [sub2_cons_pos hp] at he
              simp only [List.head?_cons, Option.some.injEq] at he
              rw [← he]; exact space_isWordC
            · have hp2 : p2At f (d :: u) = false := by
                revert hp; cases p2At f (d :: u) <;> simp
              rw [sub2_cons_neg hp2] at he
              simp only [List.head?_cons, Option.some.injEq] at he
              rw [← he]; exact hd
          have hwT : w ∈ wordRuns (sub2 f true (d :: u)) := by
            unfold wordRunsFrom at hwmem
            cases pw with
            | true =>
              rw [if_pos rfl, List.dropWhile_cons, if_neg (by simp [space_isWordC])] at hwmem
              rwa [wordRuns_cons_nonword space_isWordC] at hwmem
            | false =>
              rw [if_neg (by simp)] at hwmem
              rwa [wordRuns_cons_nonword space_isWordC] at hwmem
          -- recurse on the continuation with previous-character state `true`
          have hT2drop : (sub2 f true (d :: u)).dropWhile isWordC = sub2 f true (d :: u) := by
            cases hT : sub2 f true (d :: u) with
            | nil => rfl
            | cons e t2 =>
              have he : isWordC e = false := hT2head e (by rw [hT]; rfl)
              rw [List.dropWhile_cons, if_neg (by simp [he])]
          have hlenu : (d :: u).length ≤ n := by
            have h1 : (((c :: rest).drop ((c :: rest).takeWhile isCS).length).drop f.length).length
                ≤ rest.length := by
              rw [← hs2]
              exact (List.drop_sublist _ _).length_le
            rw [hs2c] at h1
            simp only [List.length_cons] at h1 hlen ⊢
            omega
          have hres := ihn (d :: u) hlenu true w (by
            unfold wordRunsFrom
            rw [if_pos rfl, hT2drop]
            exact hwT)
          unfold wordRunsFrom at hres
          rw [if_pos rfl, List.dropWhile_cons, if_neg (by simp [hd]),
            wordRuns_cons_nonword hd] at hres
          -- relate to the input's runs
          have hinput : w ∈ wordRuns (c :: rest) := by
            have hsplitCS := List.takeWhile_append_dropWhile (p := isCS) (l := c :: rest)
            have hruns_eq : wordRuns (c :: rest) = wordRuns ((c :: rest).dropWhile isCS) := by
              conv_lhs => rw [← hsplitCS]
              exact wordRuns_nonword_append _ _ (fun x hx => cs_not_word (hrun_cs x hx))
            rw [hruns_eq, ← hrem]
            -- the remainder begins with the matched word run, then the continuation
            have hspan := match_span hne hw hcp hA
            cases hremc : (c :: rest).drop ((c :: rest).takeWhile isCS).length with
            | nil =>
              exfalso
              rw [hremc] at hcp
              cases f with
              | nil => exact hne rfl
              | cons a f2 => simp [ciPref] at hcp
            | cons b remt =>
              have hbw : isWordC b = true := by
                have := ciPref_word hcp hw (by omega : 0 < f.length)
                rw [hremc] at this
                simpa [List.getD] using this
              rw [hremc] at hspan
              rw [wordRuns_cons_word hbw]
              apply List.mem_cons_of_mem
              have hdwr : remt.dropWhile isWordC = (b :: remt).drop f.length := by
                have := hspan.2
                rw [List.dropWhile_cons, if_pos hbw] at this
                exact this
              rw [hdwr]
              have : (b :: remt).drop f.length = d :: u := by rw [← hremc, hs2c]
              rw [this, wordRuns_cons_nonword hd]
              exact hres
          unfold wordRunsFrom
          cases pw with
          | true =>
            rw [if_pos rfl, List.dropWhile_cons, if_neg (by simp [hcnw]),
              wordRuns_cons_nonword hcnw]
            rw [wordRuns_cons_nonword hcnw] at hinput
            exact hinput
          | false =>
            rw [if_neg (by simp)]
            exact hinput
      · have hM2 : p2At f (c :: rest) = false := by
          revert hM; cases p2At f (c :: rest) <;> simp
        rw [sub2_cons_neg hM2] at hwmem
        cases hc : isWordC c with
        | false =>
          rw [hc] at hwmem
          have hruns_out : w ∈ wordRuns (sub2 f false rest) := by
            unfold wordRunsFrom at hwmem
            cases pw with
            | true =>
              rw [if_pos rfl, List.dropWhile_cons, if_neg (by simp [hc])] at hwmem
              rwa [wordRuns_cons_nonword hc] at hwmem
            | false =>
              rw [if_neg (by simp)] at hwmem
              rwa [wordRuns_cons_nonword hc] at hwmem
          have hres := ihn rest (by simp only [List.length_cons] at hlen; omega)
            false w (by
              unfold wordRunsFrom
              simp only [Bool.false_eq_true, if_false]
              exact hruns_out)
          unfold wordRunsFrom at hres
          simp only [Bool.false_eq_true, if_false] at hres
          unfold wordRunsFrom
          cases pw with
          | true =>
            rw [if_pos rfl, List.dropWhile_cons, if_neg (by simp [hc]),
              wordRuns_cons_nonword hc]
            exact hres
          | false =>
            rw [if_neg (by simp), wordRuns_cons_nonword hc]
            exact hres
        | true =>
          rw [hc] at hwmem
          have hpass := sub2_word_pass (f := f) rest true
          have hR : ∀ x ∈ rest.takeWhile isWordC, isWordC x = true := by
            intro x hx; exact List.mem_takeWhile_imp hx
          have hVhead : ∀ d, (rest.dropWhile isWordC).head? = some d → isWordC d = false :=
            dropWhile_head_false isWordC rest
          have hT2head : ∀ e, (sub2 f true (rest.dropWhile isWordC)).head? = some e →
              isWordC e = false := by
            intro e he
            cases hV : rest.dropWhile isWordC with
            | nil => rw [hV, sub2_nil] at he; simp at he
            | cons d u =>
              have hd : isWordC d = false := hVhead d (by rw [hV]; rfl)
              rw [hV] at he
              by_cases hp : p2At f (d :: u) = true
              · rw [sub2_cons_pos hp] at he
                simp only [List.head?_cons, Option.some.injEq] at he
                rw [← he]; exact space_isWordC
              · have hp2 : p2At f (d :: u) = false := by
                  revert hp; cases p2At f (d :: u) <;> simp
                rw [sub2_cons_neg hp2] at he
                simp only [List.head?_cons, Option.some.injEq] at he
                rw [← he]; exact hd
          have htail : ∀ w2, w2 ∈ wordRuns ((sub2 f true rest).dropWhile isWordC) →
              w2 ∈ wordRuns (rest.dropWhile isWordC) := by
            intro w2 hw2
            have hstop : ((rest.takeWhile isWordC) ++
                sub2 f true (rest.dropWhile isWordC)).dropWhile isWordC =
                  (rest.takeWhile isWordC).dropWhile isWordC ++
                    sub2 f true (rest.dropWhile isWordC) :=
              (takeWhile_append_stop _ _ hT2head).2
            rw [hpass, hstop, List.dropWhile_eq_nil_iff.mpr hR, List.nil_append] at hw2
            have hT2drop : (sub2 f true (rest.dropWhile isWordC)).dropWhile isWordC =
                sub2 f true (rest.dropWhile isWordC) := by
              cases hT : sub2 f true (rest.dropWhile isWordC) with
              | nil => rfl
              | cons e t2 =>
                have he : isWordC e = false := hT2head e (by rw [hT]; rfl)
                rw [List.dropWhile_cons, if_neg (by simp [he])]
            have hlenV : (rest.dropWhile isWordC).length ≤ n := by
              have h1 := (List.dropWhile_sublist (l := rest) isWordC).length_le
              simp only [List.length_cons] at hlen
              omega
            have hres := ihn (rest.dropWhile isWordC) hlenV true w2 (by
              unfold wordRunsFrom
              rw [if_pos rfl, hT2drop]
              exact hw2)
            unfold wordRunsFrom at hres
            rw [if_pos rfl] at hres
            have hVdrop : (rest.dropWhile isWordC).dropWhile isWordC =
                rest.dropWhile isWordC := by
              cases hV : rest.dropWhile isWordC with
              | nil => rfl
              | cons d u =>
                have hd : isWordC d = false := hVhead d (by rw [hV]; rfl)
                rw [List.dropWhile_cons, if_neg (by simp [hd])]
            rwa [hVdrop] at hres
          cases pw with
          | true =>
            unfold wordRunsFrom at hwmem ⊢
            rw [if_pos rfl] at hwmem ⊢
            rw [List.dropWhile_cons, if_pos hc] at hwmem ⊢
            exact htail w hwmem
          | false =>
            unfold wordRunsFrom at hwmem ⊢
            rw [if_neg (by simp)] at hwmem ⊢
            rw [wordRuns_cons_word hc] at hwmem ⊢
            have hlead : (sub2 f true rest).takeWhile isWordC = rest.takeWhile isWordC := by
              rw [hpass, (takeWhile_append_stop _ _ hT2head).1]
              exact List.takeWhile_eq_self_iff.mpr hR
            rcases List.mem_cons.mp hwmem with hweq | hwtail
            · subst hweq
              rw [hlead]
              exact List.mem_cons_self _ _
            · exact List.mem_cons_of_mem _ (htail w hwtail)

/-! ## Whitespace-cleanup equations and run preservation (C8). -/

theorem collapseWS_nil : collapseWS [] = [] := by rw [collapseWS]

theorem collapseWS_cons_sp {c : Char} {rest : List Char} (hc : isSpC c = true) :
    collapseWS (c :: rest) = ' ' :: collapseWS (rest.dropWhile isSpC) := by
  rw [collapseWS, if_pos hc]

theorem collapseWS_cons_nonsp {c : Char} {rest : List Char} (hc : isSpC c = false) :
    collapseWS (c :: rest) = c :: collapseWS rest := by
  rw [collapseWS, if_neg (by simp [hc])]

theorem subPunctWS_nil : subPunctWS [] = [] := by rw [subPunctWS]

theorem subPunctWS_cons_nonsp {c : Char} {rest : List Char} (hc : isSpC c = false) :
    subPunctWS (c :: rest) = c :: subPunctWS rest := by
  rw [subPunctWS, if_neg (by simp [hc])]

theorem subPunctWS_cons_sp_punct {c p : Char} {rest tl : List Char} (hc : isSpC c = true)
    (hd : rest.dropWhile isSpC = p :: tl) (hp : isPu p = true) :
    subPunctWS (c :: rest) = p :: subPunctWS tl := by
  rw [subPunctWS, if_pos hc]
  split
  · rename_i p2 tl2 heq
    rw [hd] at heq
    obtain ⟨rfl, rfl⟩ : p = p2 ∧ tl = tl2 := by
      constructor <;> [exact (List.cons.injEq _ _ _ _ ▸ heq).1;
        exact (List.cons.injEq _ _ _ _ ▸ heq).2]
    rw [if_pos hp]
  · rename_i heq
    rw [hd] at heq
    cases heq

theorem subPunctWS_cons_sp_nopunct {c p : Char} {rest tl : List Char} (hc : isSpC c = true)
    (hd : rest.dropWhile isSpC = p :: tl) (hp : isPu p = false) :
    subPunctWS (c :: rest) =
      (c :: rest.takeWhile isSpC) ++ subPunctWS (rest.dropWhile isSpC) := by
  rw [subPunctWS, if_pos hc]
  split
  · rename_i p2 tl2 heq
    rw [hd] at heq
    obtain ⟨rfl, rfl⟩ : p = p2 ∧ tl = tl2 := by
      constructor <;> [exact (List.cons.injEq _ _ _ _ ▸ heq).1;
        exact (List.cons.injEq _ _ _ _ ▸ heq).2]
    rw [if_neg (by simp [hp])]
  · rename_i heq
    rw [hd] at heq
    cases heq

theorem subPunctWS_cons_sp_end {c : Char} {rest : List Char} (hc : isSpC c = true)
    (hd : rest.dropWhile isSpC = []) :
    subPunctWS (c :: rest) = c :: rest.takeWhile isSpC := by
  rw [subPunctWS, if_pos hc]
  split
  · rename_i p2 tl2 heq
    rw [hd] at heq
    cases heq
  · rfl

theorem wordRuns_dropWhile_sp (u : List Char) :
    wordRuns (u.dropWhile isSpC) = wordRuns u := by
  conv_rhs => rw [← List.takeWhile_append_dropWhile (p := isSpC) (l := u)]
  exact (wordRuns_nonword_append _ _
    (fun x hx => space_not_word (List.mem_takeWhile_imp hx))).symm

theorem collapse_head_nonword {V : List Char}
    (hV : ∀ d, V.head? = some d → isWordC d = false) :
    ∀ e, (collapseWS V).head? = some e → isWordC e = false := by
  intro e he
  cases V with
  | nil => rw [collapseWS_nil] at he; cases he
  | cons d u =>
    have hd : isWordC d = false := hV d rfl
    by_cases hsp : isSpC d = true
    · rw [collapseWS_cons_sp hsp] at he
      simp only [List.head?_cons, Option.some.injEq] at he
      rw [← he]; exact space_isWordC
    · have hsp2 : isSpC d = false := by revert hsp; cases isSpC d <;> simp
      rw [collapseWS_cons_nonsp hsp2] at he
      simp only [List.head?_cons, Option.some.injEq] at he
      rw [← he]; exact hd

theorem collapse_word_pass : ∀ u : List Char,
    collapseWS u = u.takeWhile isWordC ++ collapseWS (u.dropWhile isWordC) := by
  intro u
  induction u with
  | nil => simp [collapseWS_nil]
  | cons c v ih =>
    by_cases hc : isWordC c = true
    · rw [collapseWS_cons_nonsp (word_not_space hc), List.takeWhile_cons, List.dropWhile_cons]
      simp [hc, ih]
    · have hc2 : isWordC c = false := by revert hc; cases isWordC c <;> simp
      simp [List.takeWhile_cons, List.dropWhile_cons, hc2]

/-- Collapsing whitespace preserves the word runs. -/
theorem collapse_runs : ∀ (n : Nat) (s : List Char), s.length ≤ n →
    wordRuns (collapseWS s) = wordRuns s := by
  intro n
  induction n with
  | zero =>
    intro s hlen
    have hs : s = [] := List.length_eq_zero.mp (Nat.le_zero.mp hlen)
    subst hs
    rw [collapseWS_nil]
  | succ n ihn =>
    intro s hlen
    cases s with
    | nil => rw [collapseWS_nil]
    | cons c rest =>
      by_cases hsp : isSpC c = true
      · rw [collapseWS_cons_sp hsp,
          wordRuns_cons_nonword space_isWordC,
          wordRuns_cons_nonword (space_not_word hsp)]
        have hlen2 : (rest.dropWhile isSpC).length ≤ n := by
          have := (List.dropWhile_sublist (l := rest) isSpC).length_le
          simp only [List.length_cons] at hlen
          omega
        rw [ihn _ hlen2, wordRuns_dropWhile_sp]
      · have hsp2 : isSpC c = false := by revert hsp; cases isSpC c <;> simp
        rw [collapseWS_cons_nonsp hsp2]
        by_cases hcw : isWordC c = true
        · rw [wordRuns_cons_word hcw, wordRuns_cons_word hcw]
          have hpass := collapse_word_pass rest
          have hVhead : ∀ d, (rest.dropWhile isWordC).head? = some d → isWordC d = false :=
            dropWhile_head_false isWordC rest
          have hC2head : ∀ e, (collapseWS (rest.dropWhile isWordC)).head? = some e →
              isWordC e = false := collapse_head_nonword hVhead
          have hR : ∀ x ∈ rest.takeWhile isWordC, isWordC x = true := by
            intro x hx; exact List.mem_takeWhile_imp hx
          have hlead : (collapseWS rest).takeWhile isWordC = rest.takeWhile isWordC := by
            rw [hpass, (takeWhile_append_stop _ _ hC2head).1]
            exact List.takeWhile_eq_self_iff.mpr hR
          have hdrop : (collapseWS rest).dropWhile isWordC =
              collapseWS (rest.dropWhile isWordC) := by
            rw [hpass, (takeWhile_append_stop _ _ hC2head).2,
              List.dropWhile_eq_nil_iff.mpr hR, List.nil_append]
          rw [hlead, hdrop]
          have hlen2 : (rest.dropWhile isWordC).length ≤ n := by
            have := (List.dropWhile_sublist (l := rest) isWordC).length_le
            simp only [List.length_cons] at hlen
            omega
          rw [ihn _ hlen2]
        · have hcw2 : isWordC c = false := by revert hcw; cases isWordC c <;> simp
          rw [wordRuns_cons_nonword hcw2, wordRuns_cons_nonword hcw2]
          exact ihn rest (by simp only [List.length_cons] at hlen; omega)

theorem pu_not_sp {c : Char} (h : isPu c = true) : isSpC c = false := by
  have hc : ((c = '.' ∨ c = ',') ∨ c = '!') ∨ c = '?' := by
    simpa [isPu, Bool.or_eq_true, decide_eq_true_iff] using h
  rcases hc with ((rfl | rfl) | rfl) | rfl <;> decide

theorem sp_not_pu {c : Char} (h : isSpC c = true) : isPu c = false := by
  by_contra hne
  have := pu_not_sp (c := c) (by revert hne; cases isPu c <;> simp)
  rw [h] at this
  cases this

theorem stripTrail_nil : stripTrail [] = [] := rfl

theorem stripTrail_cons_end {c : Char} {rest : List Char} (h : stripTrail rest = []) :
    stripTrail (c :: rest) = if isSpC c then [] else [c] := by
  simp only [stripTrail]
  rw [h]

theorem stripTrail_cons_cons {c d : Char} {rest t : List Char} (h : stripTrail rest = d :: t) :
    stripTrail (c :: rest) = c :: d :: t := by
  simp only [stripTrail]
  rw [h]

theorem stripTrail_decomp : ∀ u : List Char,
    ∃ r, u = stripTrail u ++ r ∧ ∀ x ∈ r, isSpC x = true := by
  intro u
  induction u with
  | nil => exact ⟨[], rfl, by simp⟩
  | cons c rest ih =>
    obtain ⟨r, hr, hras⟩ := ih
    cases hst : stripTrail rest with
    | nil =>
      rw [hst, List.nil_append] at hr
      by_cases hsp : isSpC c = true
      · refine ⟨c :: r, ?_, ?_⟩
        · rw [stripTrail_cons_end hst, if_pos hsp, List.nil_append, ← hr]
        · intro x hx
          rcases List.mem_cons.mp hx with rfl | hx2
          · exact hsp
          · exact hras x hx2
      · have hsp2 : isSpC c = false := by revert hsp; cases isSpC c <;> simp
        refine ⟨r, ?_, hras⟩
        rw [stripTrail_cons_end hst, if_neg (by simp [hsp2]), List.cons_append,
          List.nil_append, ← hr]
    | cons d t =>
      refine ⟨r, ?_, hras⟩
      rw [stripTrail_cons_cons hst, List.cons_append, ← hst, ← hr]

theorem wordRuns_append_spaces : ∀ (n : Nat) (u r : List Char), u.length ≤ n →
    (∀ x ∈ r, isWordC x = false) →
    wordRuns (u ++ r) = wordRuns u := by
  intro n
  induction n with
  | zero =>
    intro u r hlen hr
    have hu : u = [] := List.length_eq_zero.mp (Nat.le_zero.mp hlen)
    subst hu
    rw [List.nil_append, wordRuns_nil, wordRuns_all_nonword hr]
  | succ n ihn =>
    intro u r hlen hr
    cases u with
    | nil => rw [List.nil_append, wordRuns_nil, wordRuns_all_nonword hr]
    | cons c v =>
      have hrhead : ∀ d, r.head? = some d → isWordC d = false := by
        intro d hd
        cases r with
        | nil => cases hd
        | cons e r2 =>
          simp only [List.head?_cons, Option.some.injEq] at hd
          rw [← hd]; exact hr e (by simp)
      by_cases hc : isWordC c = true
      · rw [List.cons_append, wordRuns_cons_word hc, wordRuns_cons_word hc,
          (takeWhile_append_stop v r hrhead).1, (takeWhile_append_stop v r hrhead).2]
        have hlen2 : (v.dropWhile isWordC).length ≤ n := by
          have := (List.dropWhile_sublist (l := v) isWordC).length_le
          simp only [List.length_cons] at hlen
          omega
        rw [ihn _ r hlen2 hr]
      · have hc2 : isWordC c = false := by revert hc; cases isWordC c <;> simp
        rw [List.cons_append, wordRuns_cons_nonword hc2, wordRuns_cons_nonword hc2]
        exact ihn v r (by simp only [List.length_cons] at hlen; omega) hr

theorem subPunct_head_nonword {V : List Char}
    (hV : ∀ d, V.head? = some d → isWordC d = false) :
    ∀ e, (subPunctWS V).head? = some e → isWordC e = false := by
  intro e he
  cases V with
  | nil => rw [subPunctWS_nil] at he; cases he
  | cons d u =>
    have hd : isWordC d = false := hV d rfl
    by_cases hsp : isSpC d = true
    · cases hdw : u.dropWhile isSpC with
      | nil =>
        rw [subPunctWS_cons_sp_end hsp hdw] at he
        simp only [List.head?_cons, Option.some.injEq] at he
        rw [← he]; exact hd
      | cons p tl =>
        by_cases hp : isPu p = true
        · rw [subPunctWS_cons_sp_punct hsp hdw hp] at he
          simp only [List.head?_cons, Option.some.injEq] at he
          rw [← he]; exact pu_not_word hp
        · have hp2 : isPu p = false := by revert hp; cases isPu p <;> simp
          rw [subPunctWS_cons_sp_nopunct hsp hdw hp2] at he
          simp only [List.cons_append, List.head?_cons, Option.some.injEq] at he
          rw [← he]; exact hd
    · have hsp2 : isSpC d = false := by revert hsp; cases isSpC d <;> simp
      rw [subPunctWS_cons_nonsp hsp2] at he
      simp only [List.head?_cons, Option.some.injEq] at he
      rw [← he]; exact hd

theorem subPunct_word_pass : ∀ u : List Char,
    subPunctWS u = u.takeWhile isWordC ++ subPunctWS (u.dropWhile isWordC) := by
  intro u
  induction u with
  | nil => simp [subPunctWS_nil]
  | cons c v ih =>
    by_cases hc : isWordC c = true
    · rw [subPunctWS_cons_nonsp (word_not_space hc), List.takeWhile_cons, List.dropWhile_cons]
      simp [hc, ih]
    · have hc2 : isWordC c = false := by revert hc; cases isWordC c <;> simp
      simp [List.takeWhile_cons, List.dropWhile_cons, hc2]

/-- Removing whitespace before punctuation preserves the word runs. -/
theorem subPunct_runs : ∀ (n : Nat) (s : List Char), s.length ≤ n →
    wordRuns (subPunctWS s) = wordRuns s := by
  intro n
  induction n with
  | zero =>
    intro s hlen
    have hs : s = [] := List.length_eq_zero.mp (Nat.le_zero.mp hlen)
    subst hs
    rw [subPunctWS_nil]
  | succ n ihn =>
    intro s hlen
    cases s with
    | nil => rw [subPunctWS_nil]
    | cons c rest =>
      by_cases hsp : isSpC c = true
      · cases hdw : rest.dropWhile isSpC with
        | nil =>
          have hall : ∀ x ∈ c :: rest.takeWhile isSpC, isWordC x = false := by
            intro x hx
            rcases List.mem_cons.mp hx with rfl | hx2
            · exact space_not_word hsp
            · exact space_not_word (List.mem_takeWhile_imp hx2)
          rw [subPunctWS_cons_sp_end hsp hdw, wordRuns_all_nonword hall,
            wordRuns_cons_nonword (space_not_word hsp),
            ← wordRuns_dropWhile_sp rest, hdw, wordRuns_nil]
        | cons p tl =>
          by_cases hp : isPu p = true
          · have htl : tl.length ≤ n := by
              have h1 := (List.dropWhile_sublist (l := rest) isSpC).length_le
              have h2 : (rest.dropWhile isSpC).length = tl.length + 1 := by
                rw [hdw]; simp
              simp only [List.length_cons] at hlen
              omega
            rw [subPunctWS_cons_sp_punct hsp hdw hp,
              wordRuns_cons_nonword (pu_not_word hp), ihn tl htl,
              wordRuns_cons_nonword (space_not_word hsp),
              ← wordRuns_dropWhile_sp rest, hdw,
              wordRuns_cons_nonword (pu_not_word hp)]
          · have hp2 : isPu p = false := by revert hp; cases isPu p <;> simp
            have hall : ∀ x ∈ c :: rest.takeWhile isSpC, isWordC x = false := by
              intro x hx
              rcases List.mem_cons.mp hx with rfl | hx2
              · exact space_not_word hsp
              · exact space_not_word (List.mem_takeWhile_imp hx2)
            have hdlen : (rest.dropWhile isSpC).length ≤ n := by
              have := (List.dropWhile_sublist (l := rest) isSpC).length_le
              simp only [List.length_cons] at hlen
              omega
            rw [subPunctWS_cons_sp_nopunct hsp hdw hp2,
              wordRuns_nonword_append _ _ hall, ihn _ hdlen,
              wordRuns_cons_nonword (space_not_word hsp),
              ← wordRuns_dropWhile_sp rest]
      · have hsp2 : isSpC c = false := by revert hsp; cases isSpC c <;> simp
        rw [subPunctWS_cons_nonsp hsp2]
        by_cases hcw : isWordC c = true
        · rw [wordRuns_cons_word hcw, wordRuns_cons_word hcw]
          have hpass := subPunct_word_pass rest
          have hVhead : ∀ d, (rest.dropWhile isWordC).head? = some d → isWordC d = false :=
            dropWhile_head_false isWordC rest
          have hC2head : ∀ e, (subPunctWS (rest.dropWhile isWordC)).head? = some e →
              isWordC e = false := subPunct_head_nonword hVhead
          have hR : ∀ x ∈ rest.takeWhile isWordC, isWordC x = true := by
            intro x hx; exact List.mem_takeWhile_imp hx
          have hlead : (subPunctWS rest).takeWhile isWordC = rest.takeWhile isWordC := by
            rw [hpass, (takeWhile_append_stop _ _ hC2head).1]
            exact List.takeWhile_eq_self_iff.mpr hR
          have hdrop : (subPunctWS rest).dropWhile isWordC =
              subPunctWS (rest.dropWhile isWordC) := by
            rw [hpass, (takeWhile_append_stop _ _ hC2head).2,
              List.dropWhile_eq_nil_iff.mpr hR, List.nil_append]
          rw [hlead, hdrop]
          have hlen2 : (rest.dropWhile isWordC).length ≤ n := by
            have := (List.dropWhile_sublist (l := rest) isWordC).length_le
            simp only [List.length_cons] at hlen
            omega
          rw [ihn _ hlen2]
        · have hcw2 : isWordC c = false := by revert hcw; cases isWordC c <;> simp
          rw [wordRuns_cons_nonword hcw2, wordRuns_cons_nonword hcw2]
          exact ihn rest (by simp only [List.length_cons] at hlen; omega)

/-- Stripping leading and trailing whitespace preserves the word runs. -/
theorem strip_runs (s : List Char) : wordRuns (stripWS s) = wordRuns s := by
  unfold stripWS
  obtain ⟨r, hr, hras⟩ := stripTrail_decomp (s.dropWhile isSpC)
  have hnon : ∀ x ∈ r, isWordC x = false := fun x hx => space_not_word (hras x hx)
  have h2 : wordRuns (s.dropWhile isSpC) =
      wordRuns (stripTrail (s.dropWhile isSpC)) := by
    conv_lhs => rw [hr]
    exact wordRuns_append_spaces (stripTrail (s.dropWhile isSpC)).length _ r le_rfl hnon
  rw [← h2, wordRuns_dropWhile_sp]

/-- The whole whitespace cleanup of `_remove_filler_words_pattern` preserves
the word runs. -/
theorem cleanup_runs (s : List Char) :
    wordRuns (stripWS (subPunctWS (collapseWS s))) = wordRuns s := by
  rw [strip_runs, subPunct_runs (collapseWS s).length (collapseWS s) le_rfl,
    collapse_runs s.length s le_rfl]

/-! ## Whitespace-normalisation properties of the cleanup (C8). -/

theorem noAdjWS_cons {a : Char} {l : List Char} (hl : noAdjWS l = true)
    (hh : ∀ b, l.head? = some b → isSpC a = false ∨ isSpC b = false) :
    noAdjWS (a :: l) = true := by
  cases l with
  | nil => rfl
  | cons b r =>
    have hab := hh b rfl
    show (!(isSpC a && isSpC b) && noAdjWS (b :: r)) = true
    rcases hab with h | h <;> simp [h, hl]

theorem noAdjWS_tail {a : Char} {l : List Char} (h : noAdjWS (a :: l) = true) :
    noAdjWS l = true := by
  cases l with
  | nil => rfl
  | cons b r =>
    have h2 : (!(isSpC a && isSpC b) && noAdjWS (b :: r)) = true := h
    rw [Bool.and_eq_true] at h2
    exact h2.2

theorem noAdjWS_pair {a b : Char} {r : List Char}
    (h : noAdjWS (a :: b :: r) = true) (ha : isSpC a = true) : isSpC b = false := by
  have h2 : (!(isSpC a && isSpC b) && noAdjWS (b :: r)) = true := h
  rw [Bool.and_eq_true] at h2
  have h3 := h2.1
  rw [ha] at h3
  revert h3
  cases isSpC b <;> simp

theorem noWSPunct_cons {a : Char} {l : List Char} (hl : noWSPunct l = true)
    (hh : ∀ b, l.head? = some b → isSpC a = false ∨ isPu b = false) :
    noWSPunct (a :: l) = true := by
  cases l with
  | nil => rfl
  | cons b r =>
    have hab := hh b rfl
    show (!(isSpC a && isPu b) && noWSPunct (b :: r)) = true
    rcases hab with h | h <;> simp [h, hl]

theorem noWSPunct_tail {a : Char} {l : List Char} (h : noWSPunct (a :: l) = true) :
    noWSPunct l = true := by
  cases l with
  | nil => rfl
  | cons b r =>
    have h2 : (!(isSpC a && isPu b) && noWSPunct (b :: r)) = true := h
    rw [Bool.and_eq_true] at h2
    exact h2.2

theorem noWSPunct_of_all_sp : ∀ l : List Char,
    (∀ x ∈ l, isSpC x = true) → noWSPunct l = true := by
  intro l
  induction l with
  | nil => intro _; rfl
  | cons a l2 ih =>
    intro h
    refine noWSPunct_cons (ih (fun x hx => h x (by simp [hx]))) ?_
    intro b hb
    cases l2 with
    | nil => cases hb
    | cons d r =>
      simp only [List.head?_cons, Option.some.injEq] at hb
      subst hb
      exact Or.inr (sp_not_pu (h d (by simp)))

theorem noWSPunct_sp_append (X : List Char)
    (hXh : ∀ b, X.head? = some b → isPu b = false) (hX : noWSPunct X = true) :
    ∀ r : List Char, (∀ x ∈ r, isSpC x = true) → noWSPunct (r ++ X) = true := by
  intro r
  induction r with
  | nil => intro _; simpa using hX
  | cons a r2 ih =>
    intro hr
    rw [List.cons_append]
    refine noWSPunct_cons (ih (fun x hx => hr x (by simp [hx]))) ?_
    intro b hb
    cases r2 with
    | nil =>
      rw [List.nil_append] at hb
      exact Or.inr (hXh b hb)
    | cons d r3 =>
      simp only [List.cons_append, List.head?_cons, Option.some.injEq] at hb
      subst hb
      exact Or.inr (sp_not_pu (hr d (by simp)))

/-- Collapsing whitespace leaves no two adjacent whitespace characters. -/
theorem collapse_noAdj : ∀ (n : Nat) (u : List Char), u.length ≤ n →
    noAdjWS (collapseWS u) = true := by
  intro n
  induction n with
  | zero =>
    intro u hlen
    have hu : u = [] := List.length_eq_zero.mp (Nat.le_zero.mp hlen)
    subst hu
    rw [collapseWS_nil]
    rfl
  | succ n ihn =>
    intro u hlen
    cases u with
    | nil => rw [collapseWS_nil]; rfl
    | cons c rest =>
      by_cases hsp : isSpC c = true
      · rw [collapseWS_cons_sp hsp]
        have hlen2 : (rest.dropWhile isSpC).length ≤ n := by
          have := (List.dropWhile_sublist (l := rest) isSpC).length_le
          simp only [List.length_cons] at hlen
          omega
        refine noAdjWS_cons (ihn _ hlen2) ?_
        intro b hb
        cases hdw : rest.dropWhile isSpC with
        | nil => rw [hdw, collapseWS_nil] at hb; cases hb
        | cons d u2 =>
          have hd : isSpC d = false := by
            have := dropWhile_head_false isSpC rest
            rw [hdw] at this
            exact this d rfl
          rw [hdw, collapseWS_cons_nonsp hd] at hb
          simp only [List.head?_cons, Option.some.injEq] at hb
          subst hb
          exact Or.inr hd
      · have hsp2 : isSpC c = false := by revert hsp; cases isSpC c <;> simp
        rw [collapseWS_cons_nonsp hsp2]
        refine noAdjWS_cons (ihn rest (by simp only [List.length_cons] at hlen; omega)) ?_
        intro b _
        exact Or.inl hsp2

/-- `subPunctWS` preserves the absence of adjacent whitespace. -/
theorem subPunct_noAdj : ∀ (n : Nat) (s : List Char), s.length ≤ n →
    noAdjWS s = true → noAdjWS (subPunctWS s) = true := by
  intro n
  induction n with
  | zero =>
    intro s hlen _
    have hs : s = [] := List.length_eq_zero.mp (Nat.le_zero.mp hlen)
    subst hs
    rw [subPunctWS_nil]
    rfl
  | succ n ihn =>
    intro s hlen hadj
    cases s with
    | nil => rw [subPunctWS_nil]; rfl
    | cons c rest =>
      by_cases hsp : isSpC c = true
      · cases rest with
        | nil =>
          rw [subPunctWS_cons_sp_end hsp (List.dropWhile_nil)]
          rfl
        | cons p tl =>
          have hps : isSpC p = false := noAdjWS_pair hadj hsp
          have hdw : (p :: tl).dropWhile isSpC = p :: tl := by
            rw [List.dropWhile_cons, if_neg (by simp [hps])]
          have htladj : noAdjWS tl = true := noAdjWS_tail (noAdjWS_tail hadj)
          have htllen : tl.length ≤ n := by
            simp only [List.length_cons] at hlen; omega
          by_cases hp : isPu p = true
          · rw [subPunctWS_cons_sp_punct hsp hdw hp]
            refine noAdjWS_cons (ihn tl htllen htladj) ?_
            intro b _
            exact Or.inl hps
          · have hp2 : isPu p = false := by revert hp; cases isPu p <;> simp
            rw [subPunctWS_cons_sp_nopunct hsp hdw hp2, hdw]
            have htw : (p :: tl).takeWhile isSpC = [] := by
              rw [List.takeWhile_cons, if_neg (by simp [hps])]
            rw [htw, subPunctWS_cons_nonsp hps, List.cons_append, List.nil_append]
            refine noAdjWS_cons ?_ ?_
            · refine noAdjWS_cons (ihn tl htllen htladj) ?_
              intro b _
              exact Or.inl hps
            · intro b hb
              simp only [List.head?_cons, Option.some.injEq] at hb
              subst hb
              exact Or.inr hps
      · have hsp2 : isSpC c = false := by revert hsp; cases isSpC c <;> simp
        rw [subPunctWS_cons_nonsp hsp2]
        refine noAdjWS_cons (ihn rest (by simp only [List.length_cons] at hlen; omega)
          (noAdjWS_tail hadj)) ?_
        intro b _
        exact Or.inl hsp2

theorem noAdjWS_append_left : ∀ (u r : List Char), noAdjWS (u ++ r) = true →
    noAdjWS u = true := by
  intro u
  induction u with
  | nil => intro r _; rfl
  | cons a u2 ih =>
    intro r h
    cases u2 with
    | nil => rfl
    | cons b u3 =>
      have h2 : (!(isSpC a && isSpC b) && noAdjWS (b :: (u3 ++ r))) = true := h
      rw [Bool.and_eq_true] at h2
      have h3 := ih r h2.2
      show (!(isSpC a && isSpC b) && noAdjWS (b :: u3)) = true
      rw [Bool.and_eq_true]
      exact ⟨h2.1, h3⟩

theorem noAdjWS_dropWhile (p : Char → Bool) : ∀ u : List Char,
    noAdjWS u = true → noAdjWS (u.dropWhile p) = true := by
  intro u
  induction u with
  | nil => intro _; rfl
  | cons a u2 ih =>
    intro h
    rw [List.dropWhile_cons]
    by_cases hp : p a = true
    · rw [if_pos hp]
      exact ih (noAdjWS_tail h)
    · rw [if_neg hp]
      exact h

/-- Stripping preserves the absence of adjacent whitespace. -/
theorem strip_noAdj {s : List Char} (h : noAdjWS s = true) :
    noAdjWS (stripWS s) = true := by
  unfold stripWS
  obtain ⟨r, hr, _⟩ := stripTrail_decomp (s.dropWhile isSpC)
  have h1 := noAdjWS_dropWhile isSpC s h
  rw [hr] at h1
  exact noAdjWS_append_left _ r h1

/-- `subPunctWS` leaves no whitespace immediately before `.,!?`. -/
theorem subPunct_noWSPunct : ∀ (n : Nat) (s : List Char), s.length ≤ n →
    noWSPunct (subPunctWS s) = true := by
  intro n
  induction n with
  | zero =>
    intro s hlen
    have hs : s = [] := List.length_eq_zero.mp (Nat.le_zero.mp hlen)
    subst hs
    rw [subPunctWS_nil]
    rfl
  | succ n ihn =>
    intro s hlen
    cases s with
    | nil => rw [subPunctWS_nil]; rfl
    | cons c rest =>
      by_cases hsp : isSpC c = true
      · cases hdw : rest.dropWhile isSpC with
        | nil =>
          rw [subPunctWS_cons_sp_end hsp hdw]
          refine noWSPunct_of_all_sp _ ?_
          intro x hx
          rcases List.mem_cons.mp hx with rfl | hx2
          · exact hsp
          · exact List.mem_takeWhile_imp hx2
        | cons p tl =>
          have hps : isSpC p = false := by
            have := dropWhile_head_false isSpC rest
            rw [hdw] at this
            exact this p rfl
          have htllen : tl.length ≤ n := by
            have h1 := (List.dropWhile_sublist (l := rest) isSpC).length_le
            have h2 : (rest.dropWhile isSpC).length = tl.length + 1 := by rw [hdw]; simp
            simp only [List.length_cons] at hlen
            omega
          by_cases hp : isPu p = true
          · rw [subPunctWS_cons_sp_punct hsp hdw hp]
            refine noWSPunct_cons (ihn tl htllen) ?_
            intro b _
            exact Or.inl (pu_not_sp hp)
          · have hp2 : isPu p = false := by revert hp; cases isPu p <;> simp
            have hplen : (p :: tl).length ≤ n := by
              have h1 := (List.dropWhile_sublist (l := rest) isSpC).length_le
              have h2 : (rest.dropWhile isSpC).length = tl.length + 1 := by rw [hdw]; simp
              simp only [List.length_cons] at hlen ⊢
              omega
            have hXh : ∀ b, (subPunctWS (p :: tl)).head? = some b → isPu b = false := by
              intro b hb
              rw [subPunctWS_cons_nonsp hps] at hb
              simp only [List.head?_cons, Option.some.injEq] at hb
              subst hb
              exact hp2
            rw [subPunctWS_cons_sp_nopunct hsp hdw hp2, hdw]
            refine noWSPunct_sp_append _ hXh (ihn _ hplen) _ ?_
            intro x hx
            rcases List.mem_cons.mp hx with rfl | hx2
            · exact hsp
            · exact List.mem_takeWhile_imp hx2
      · have hsp2 : isSpC c = false := by revert hsp; cases isSpC c <;> simp
        rw [subPunctWS_cons_nonsp hsp2]
        refine noWSPunct_cons (ihn rest (by simp only [List.length_cons] at hlen; omega)) ?_
        intro b _
        exact Or.inl hsp2

theorem noWSPunct_append_left : ∀ (u r : List Char), noWSPunct (u ++ r) = true →
    noWSPunct u = true := by
  intro u
  induction u with
  | nil => intro r _; rfl
  | cons a u2 ih =>
    intro r h
    cases u2 with
    | nil => rfl
    | cons b u3 =>
      have h2 : (!(isSpC a && isPu b) && noWSPunct (b :: (u3 ++ r))) = true := h
      rw [Bool.and_eq_true] at h2
      have h3 := ih r h2.2
      show (!(isSpC a && isPu b) && noWSPunct (b :: u3)) = true
      rw [Bool.and_eq_true]
      exact ⟨h2.1, h3⟩

theorem noWSPunct_dropWhile (p : Char → Bool) : ∀ u : List Char,
    noWSPunct u = true → noWSPunct (u.dropWhile p) = true := by
  intro u
  induction u with
  | nil => intro _; rfl
  | cons a u2 ih =>
    intro h
    rw [List.dropWhile_cons]
    by_cases hp : p a = true
    · rw [if_pos hp]
      exact ih (noWSPunct_tail h)
    · rw [if_neg hp]
      exact h

/-- Stripping preserves the absence of whitespace before punctuation. -/
theorem strip_noWSPunct {s : List Char} (h : noWSPunct s = true) :
    noWSPunct (stripWS s) = true := by
  unfold stripWS
  obtain ⟨r, hr, _⟩ := stripTrail_decomp (s.dropWhile isSpC)
  have h1 := noWSPunct_dropWhile isSpC s h
  rw [hr] at h1
  exact noWSPunct_append_left _ r h1

/-! ## The `high` pass over the whole filler list (C8). -/

theorem wordRunsFrom_false (s : List Char) : wordRunsFrom false s = wordRuns s := by
  unfold wordRunsFrom
  rw [if_neg (by simp)]

theorem applyFillerSubs_high (f s : List Char) :
    applyFillerSubs "high" f s = subWW f false (sub2 f false (sub1 f false s)) := by
  unfold applyFillerSubs
  rw [if_pos (by decide), if_pos (by decide), if_pos (by decide)]

/-- One `high`-aggressiveness filler pass: every word run of the output is a
word run of the input, and none of them spells the filler (case-insensitively). -/
theorem applyFillerSubs_high_runs {f : List Char} (hne : f ≠ [])
    (hw : ∀ c ∈ f, isWordC c = true) (s : List Char) (w : List Char)
    (hmem : w ∈ wordRuns (applyFillerSubs "high" f s)) :
    w ∈ wordRuns s ∧ lows w ≠ lows f := by
  rw [applyFillerSubs_high, ← wordRunsFrom_false] at hmem
  have h1 := subWW_runs hne hw (sub2 f false (sub1 f false s)).length _ le_rfl false w hmem
  have h2 := sub2_runs_sub hne hw (sub1 f false s).length _ le_rfl false w h1.1
  have h3 := sub1_runs_sub hne hw s.length _ le_rfl false w h2
  rw [wordRunsFrom_false] at h3
  exact ⟨h3, h1.2⟩

/-- Folding the `high` pass over the filler list: every word run of the output
is a word run of the input and none of them spells any of the fillers. -/
theorem foldl_high_runs : ∀ (fws : List String),
    (∀ fw ∈ fws, fw.toList ≠ [] ∧ ∀ c ∈ fw.toList, isWordC c = true) →
    ∀ (s w : List Char),
      w ∈ wordRuns (fws.foldl (fun acc fw => applyFillerSubs "high" fw.toList acc) s) →
      w ∈ wordRuns s ∧ ∀ fw ∈ fws, lows w ≠ lows fw.toList := by
  intro fws
  induction fws with
  | nil =>
    intro _ s w hmem
    rw [List.foldl_nil] at hmem
    exact ⟨hmem, by simp⟩
  | cons g rest ih =>
    intro hall s w hmem
    rw [List.foldl_cons] at hmem
    have hg := hall g (by simp)
    have hrest : ∀ fw ∈ rest, fw.toList ≠ [] ∧ ∀ c ∈ fw.toList, isWordC c = true :=
      fun fw hfw => hall fw (by simp [hfw])
    obtain ⟨h1, h2⟩ := ih hrest _ w hmem
    obtain ⟨h3, h4⟩ := applyFillerSubs_high_runs hg.1 hg.2 s w h1
    refine ⟨h3, ?_⟩
    intro fw hfw
    rcases List.mem_cons.mp hfw with rfl | hfw2
    · exact h4
    · exact h2 fw hfw2

theorem removeFillerPattern_high (fillerWords : List String) (text : String) :
    (TextProcessor.removeFillerPattern "high" fillerWords text).toList =
      stripWS (subPunctWS (collapseWS
        (fillerWords.foldl (fun acc fw => applyFillerSubs "high" fw.toList acc)
          text.toList))) := by
  unfold TextProcessor.removeFillerPattern
  rw [if_neg (by decide)]
  rfl

/-- **C8 (amended).** The original claim — that the `high` pass removes every
case-insensitive whole-word occurrence of *every* configured filler word — is
false for the program's default multi-word fillers (`"you know"`, `"sort of"`,
`"kind of"`): removals and the whitespace collapse can splice surviving words
into a fresh occurrence of such a phrase.  Amended claim: for any filler list
whose entries are non-empty single tokens of word characters (which includes
`um`, `uh`, `like` and the configured Chinese fillers), and any text over the
character fragment on which the embedded classes agree with Python's
(`faithfulChar`), the `high` pass output contains no case-insensitive
whole-word occurrence of any listed filler — bare occurrences anywhere in the
text, in addition to the boundary-delimited ones; and after substitution the
cleanup leaves no two adjacent whitespace characters (whitespace runs
collapsed to a single space) and no whitespace immediately before
`.`, `,`, `!`, `?`. -/
theorem claim_c8_high_removes_fillers (fillerWords : List String) (text : String)
    (hall : ∀ fw ∈ fillerWords, fw.toList ≠ [] ∧ ∀ c ∈ fw.toList, isWordC c = true)
    (htext : ∀ c ∈ text.toList, faithfulChar c = true) :
    (∀ fw ∈ fillerWords,
      hasWW fw.toList
        (TextProcessor.removeFillerPattern "high" fillerWords text).toList = false)
    ∧ noAdjWS (TextProcessor.removeFillerPattern "high" fillerWords text).toList = true
    ∧ noWSPunct (TextProcessor.removeFillerPattern "high" fillerWords text).toList = true := by
  rw [removeFillerPattern_high]
  refine ⟨?_, ?_, ?_⟩
  · intro fw hfw
    obtain ⟨hne, hw⟩ := hall fw hfw
    by_contra hcon
    have htrue : hasWW fw.toList (stripWS (subPunctWS (collapseWS
        (fillerWords.foldl (fun acc g => applyFillerSubs "high" g.toList acc)
          text.toList)))) = true := by
      revert hcon
      cases hasWW fw.toList (stripWS (subPunctWS (collapseWS
        (fillerWords.foldl (fun acc g => applyFillerSubs "high" g.toList acc)
          text.toList)))) <;> simp
    unfold hasWW at htrue
    obtain ⟨w, hwmem, hlows⟩ := (hasWWFrom_iff_runs hne hw _ false).mp htrue
    rw [wordRunsFrom_false, cleanup_runs] at hwmem
    exact (foldl_high_runs fillerWords hall text.toList w hwmem).2 fw hfw hlows
  · exact strip_noAdj (subPunct_noAdj _ _ le_rfl (collapse_noAdj _ _ le_rfl))
  · exact strip_noWSPunct (subPunct_noWSPunct _ _ le_rfl)

theorem claim_c8_witness :
    (∀ fw ∈ ["um"], fw.toList ≠ [] ∧ ∀ c ∈ fw.toList, isWordC c = true) ∧
    (∀ c ∈ "Um, I like UM it".toList, faithfulChar c = true) ∧
    ((∀ fw ∈ ["um"],
        hasWW fw.toList
          (TextProcessor.removeFillerPattern "high" ["um"] "Um, I like UM it").toList = false)
      ∧ noAdjWS
          (TextProcessor.removeFillerPattern "high" ["um"] "Um, I like UM it").toList = true
      ∧ noWSPunct
          (TextProcessor.removeFillerPattern "high" ["um"] "Um, I like UM it").toList
          = true) :=
  ⟨by decide, by decide,
    claim_c8_high_removes_fillers ["um"] "Um, I like UM it" (by decide) (by decide)⟩

/-! ## The fuel-indexed evaluators agree with the scanners (C8). -/

theorem subWWF_eq (f : List Char) : ∀ (fuel : Nat) (pw : Bool) (s : List Char),
    s.length ≤ fuel → subWWF f fuel pw s = subWW f pw s := by
  intro fuel
  induction fuel with
  | zero =>
    intro pw s hlen
    have hs : s = [] := List.length_eq_zero.mp (Nat.le_zero.mp hlen)
    subst hs
    rw [subWW_nil]
    rfl
  | succ n ihn =>
    intro pw s hlen
    cases s with
    | nil => rw [subWW_nil]; rfl
    | cons c rest =>
      by_cases hm : wwAt f pw (c :: rest) = true
      · have hlen2 : (rest.drop (f.length - 1)).length ≤ n := by
          simp only [List.length_drop]
          simp only [List.length_cons] at hlen
          omega
        rw [subWW_cons_pos hm]
        simp only [subWWF]
        rw [if_pos hm, ihn _ _ hlen2]
      · have hm2 : wwAt f pw (c :: rest) = false := by
          revert hm; cases wwAt f pw (c :: rest) <;> simp
        have hlen2 : rest.length ≤ n := by simp only [List.length_cons] at hlen; omega
        rw [subWW_cons_neg hm2]
        simp only [subWWF]
        rw [if_neg (by simp [hm2]), ihn _ _ hlen2]

theorem sub1F_eq (f : List Char) : ∀ (fuel : Nat) (pw : Bool) (s : List Char),
    s.length ≤ fuel → sub1F f fuel pw s = sub1 f pw s := by
  intro fuel
  induction fuel with
  | zero =>
    intro pw s hlen
    have hs : s = [] := List.length_eq_zero.mp (Nat.le_zero.mp hlen)
    subst hs
    rw [sub1_nil]
    rfl
  | succ n ihn =>
    intro pw s hlen
    cases s with
    | nil => rw [sub1_nil]; rfl
    | cons c rest =>
      by_cases hm : p1At f pw (c :: rest) = true
      · have hlen2 :
            (rest.drop (f.length + (((c :: rest).drop f.length).takeWhile isCS).length
              - 1)).length ≤ n := by
          simp only [List.length_drop]
          simp only [List.length_cons] at hlen
          omega
        rw [sub1_cons_pos hm]
        simp only [sub1F]
        rw [if_pos hm, ihn _ _ hlen2]
      · have hm2 : p1At f pw (c :: rest) = false := by
          revert hm; cases p1At f pw (c :: rest) <;> simp
        have hlen2 : rest.length ≤ n := by simp only [List.length_cons] at hlen; omega
        rw [sub1_cons_neg hm2]
        simp only [sub1F]
        rw [if_neg (by simp [hm2]), ihn _ _ hlen2]

theorem sub2F_eq (f : List Char) : ∀ (fuel : Nat) (pw : Bool) (s : List Char),
    s.length ≤ fuel → sub2F f fuel pw s = sub2 f pw s := by
  intro fuel
  induction fuel with
  | zero =>
    intro pw s hlen
    have hs : s = [] := List.length_eq_zero.mp (Nat.le_zero.mp hlen)
    subst hs
    rw [sub2_nil]
    rfl
  | succ n ihn =>
    intro pw s hlen
    cases s with
    | nil => rw [sub2_nil]; rfl
    | cons c rest =>
      by_cases hm : p2At f (c :: rest) = true
      · have hlen2 :
            (rest.drop (((c :: rest).takeWhile isCS).length + f.length - 1)).length
              ≤ n := by
          simp only [List.length_drop]
          simp only [List.length_cons] at hlen
          omega
        rw [sub2_cons_pos hm]
        simp only [sub2F]
        rw [if_pos hm, ihn _ _ hlen2]
      · have hm2 : p2At f (c :: rest) = false := by
          revert hm; cases p2At f (c :: rest) <;> simp
        have hlen2 : rest.length ≤ n := by simp only [List.length_cons] at hlen; omega
        rw [sub2_cons_neg hm2]
        simp only [sub2F]
        rw [if_neg (by simp [hm2]), ihn _ _ hlen2]

theorem collapseWSF_eq : ∀ (fuel : Nat) (s : List Char),
    s.length ≤ fuel → collapseWSF fuel s = collapseWS s := by
  intro fuel
  induction fuel with
  | zero =>
    intro s hlen
    have hs : s = [] := List.length_eq_zero.mp (Nat.le_zero.mp hlen)
    subst hs
    rw [collapseWS_nil]
    rfl
  | succ n ihn =>
    intro s hlen
    cases s with
    | nil => rw [collapseWS_nil]; rfl
    | cons c rest =>
      by_cases hsp : isSpC c = true
      · have hlen2 : (rest.dropWhile isSpC).length ≤ n := by
          have := (List.dropWhile_sublist (l := rest) isSpC).length_le
          simp only [List.length_cons] at hlen
          omega
        rw [collapseWS_cons_sp hsp]
        simp only [collapseWSF]
        rw [if_pos hsp, ihn _ hlen2]
      · have hsp2 : isSpC c = false := by revert hsp; cases isSpC c <;> simp
        have hlen2 : rest.length ≤ n := by simp only [List.length_cons] at hlen; omega
        rw [collapseWS_cons_nonsp hsp2]
        simp only [collapseWSF]
        rw [if_neg (by simp [hsp2]), ihn _ hlen2]

theorem subPunctWSF_eq : ∀ (fuel : Nat) (s : List Char),
    s.length ≤ fuel → subPunctWSF fuel s = subPunctWS s := by
  intro fuel
  induction fuel with
  | zero =>
    intro s hlen
    have hs : s = [] := List.length_eq_zero.mp (Nat.le_zero.mp hlen)
    subst hs
    rw [subPunctWS_nil]
    rfl
  | succ n ihn =>
    intro s hlen
    cases s with
    | nil => rw [subPunctWS_nil]; rfl
    | cons c rest =>
      by_cases hsp : isSpC c = true
      · cases hdw : rest.dropWhile isSpC with
        | nil =>
          rw [subPunctWS_cons_sp_end hsp hdw]
          simp only [subPunctWSF]
          rw [if_pos hsp]
          simp only [hdw]
        | cons p tl =>
          have hdlen : (rest.dropWhile isSpC).length ≤ n := by
            have := (List.dropWhile_sublist (l := rest) isSpC).length_le
            simp only [List.length_cons] at hlen
            omega
          have h2 : (rest.dropWhile isSpC).length = tl.length + 1 := by rw [hdw]; simp
          have htllen : tl.length ≤ n := by omega
          have hplen : (p :: tl).length ≤ n := by
            simp only [List.length_cons]; omega
          by_cases hp : isPu p = true
          · rw [subPunctWS_cons_sp_punct hsp hdw hp]
            simp only [subPunctWSF]
            rw [if_pos hsp]
            simp only [hdw]
            rw [if_pos hp, ihn _ htllen]
          · have hp2 : isPu p = false := by revert hp; cases isPu p <;> simp
            rw [subPunctWS_cons_sp_nopunct hsp hdw hp2]
            simp only [subPunctWSF]
            rw [if_pos hsp]
            simp only [hdw]
            rw [if_neg (by simp [hp2]), ihn _ hplen]
      · have hsp2 : isSpC c = false := by revert hsp; cases isSpC c <;> simp
        have hlen2 : rest.length ≤ n := by simp only [List.length_cons] at hlen; omega
        rw [subPunctWS_cons_nonsp hsp2]
        simp only [subPunctWSF]
        rw [if_neg (by simp [hsp2]), ihn _ hlen2]

/-! ## The concrete `high` pass on the default multi-word filler "you know". -/

theorem removeFillerPattern_youknow :
    TextProcessor.removeFillerPattern "high" ["you know"] "you you know know"
      = "you know" := by
  have h1 : sub1 "you know".toList false "you you know know".toList
      = "you  know".toList := by
    rw [← sub1F_eq "you know".toList 17 false "you you know know".toList (by decide)]
    decide
  have h2 : sub2 "you know".toList false "you  know".toList = "you  know".toList := by
    rw [← sub2F_eq "you know".toList 9 false "you  know".toList (by decide)]
    decide
  have h3 : subWW "you know".toList false "you  know".toList = "you  know".toList := by
    rw [← subWWF_eq "you know".toList 9 false "you  know".toList (by decide)]
    decide
  have h4 : collapseWS "you  know".toList = "you know".toList := by
    rw [← collapseWSF_eq 9 "you  know".toList (by decide)]
    decide
  have h5 : subPunctWS "you know".toList = "you know".toList := by
    rw [← subPunctWSF_eq 8 "you know".toList (by decide)]
    decide
  apply String.ext
  show (TextProcessor.removeFillerPattern "high" ["you know"] "you you know know").toList
      = "you know".toList
  rw [removeFillerPattern_high, List.foldl_cons, List.foldl_nil, applyFillerSubs_high,
    h1, h2, h3, h4, h5]
  decide

/-- **C8 (counterexample).** The claim fails for the program's default
configured multi-word fillers: with filler list `["you know"]` at
aggressiveness `high`, the pass maps "you you know know" to "you know" —
the first boundary pattern consumes the middle `you know` and its trailing
whitespace, and the whitespace collapse then splices the remaining outer
`you`/`know` into a fresh case-insensitive whole-word occurrence of the
configured filler, which therefore survives in the output. -/
theorem claim_c8_counterexample :
    TextProcessor.removeFillerPattern "high" ["you know"] "you you know know"
      = "you know"
    ∧ hasWW "you know".toList
        (TextProcessor.removeFillerPattern "high" ["you know"] "you you know know").toList
        = true := by
  refine ⟨removeFillerPattern_youknow, ?_⟩
  rw [removeFillerPattern_youknow]
  decide
